import Mathlib

/-!
Route registration and dispatch of `lib/router/route.js` and
`lib/router/layer.js`.

A shallow embedding of the `Route` class (registration, method introspection,
dispatch) and of `Layer`: the handler entry points, `decodeParam` and `match`.

Conventions of the embedding:

* JavaScript values that flow through the continuation (`next(err)`), through
  `req.method` and through registration arguments are values of `JSVal`, with
  the truthiness and strict-equality behaviour the source relies on.
* A handler is a declared parameter count (`fn.length`) together with a body
  that lists, in order, what the function does with its continuation:
  synchronous calls, calls made in a later turn, and a final `throw`.
* `dispatch` is instrumented with a trace of events (handler invocations,
  calls of `done`, and `setImmediate` deferrals) and a queue of pending
  `next(err)` calls of later turns.
* The pattern compiler `path-to-regexp` is a parameter (`PathCompiler`); the
  builtin `decodeURIComponent` is modelled after the ECMAScript operation.
* The recursion `next -> handler -> next` is bounded by a depth budget;
  `Route.next_not_starved` shows the budget `stack.length + 1` that `dispatch`
  and every later turn use is never exhausted.
-/

namespace Express

/-! ## Values -/

/-- JavaScript values other than functions and arrays. `obj tag id` is an
object that is neither callable nor an array, whose `Object.prototype.toString`
class is `tag`. -/
inductive JSVal where
  | undefined
  | null
  | bool (b : Bool)
  | num (n : Int)
  | nan
  | str (s : String)
  | obj (tag : String) (id : Nat)
  deriving DecidableEq

/-- Truthiness (`ToBoolean`). -/
def JSVal.truthy : JSVal → Bool
  | .undefined => false
  | .null => false
  | .bool b => b
  | .num n => n != 0
  | .nan => false
  | .str s => s != ""
  | .obj _ _ => true

/-- Result of `Object.prototype.toString.call(v)`. -/
def JSVal.typeTag : JSVal → String
  | .undefined => "[object Undefined]"
  | .null => "[object Null]"
  | .bool _ => "[object Boolean]"
  | .num _ => "[object Number]"
  | .nan => "[object Number]"
  | .str _ => "[object String]"
  | .obj tag _ => "[object " ++ tag ++ "]"

/-- Conversion of a value used as a property name (`obj[v]`). Objects are
taken to use the default `toString`. -/
def JSVal.toKey : JSVal → String
  | .undefined => "undefined"
  | .null => "null"
  | .bool true => "true"
  | .bool false => "false"
  | .num n => toString n
  | .nan => "NaN"
  | .str s => s
  | .obj tag _ => "[object " ++ tag ++ "]"

/-- The method `String.prototype.toLowerCase`, on the ASCII letters. -/
def toLowerCase (s : String) : String := ⟨s.data.map Char.toLower⟩

/-- The method `String.prototype.toUpperCase`, on the ASCII letters. -/
def toUpperCase (s : String) : String := ⟨s.data.map Char.toUpper⟩

/-! ## Handlers and layers -/

/-- What a handler does with its continuation, in program order. -/
inductive Action where
  /-- synchronous `next(v)`; `next()` is `callNext .undefined` -/
  | callNext (v : JSVal)
  /-- arranges for `next(v)` to be called in a later turn -/
  | callLater (v : JSVal)
  /-- `throw v`; ends the body -/
  | throw (v : JSVal)
  deriving DecidableEq

/-- The request as far as the route reads or writes it: `req.method`, and
whether `req.route` refers to the dispatching route. -/
structure Req where
  method : JSVal
  route : Bool
  deriving DecidableEq

/-- A function value: its declared parameter count `fn.length` and its
behaviour, which may depend on the error argument (absent for a call
`fn(req, res, next)`) and on the request. -/
structure Handler where
  length : Nat
  body : Option JSVal → Req → List Action

/-- The part of a `Layer` the route uses: the bound handler, the method tag
(`none` is `undefined`), and the constructor arguments `path` and
`options.end`. -/
structure Layer where
  handle : Handler
  method : Option String
  pathExpr : String
  optsEnd : Option Bool

/-- The constructor call `new Layer(path, options, fn)`; the `method` field
starts `undefined`. -/
def Layer.new (path : String) (optsEnd : Option Bool) (fn : Handler) : Layer :=
  { handle := fn, method := none, pathExpr := path, optsEnd := optsEnd }

/-- The flag `regexp.fast_star = path === "*"`. -/
def Layer.fast_star (l : Layer) : Bool := l.pathExpr == "*"

/-- The flag `regexp.fast_slash = path === "/" && options.end === false`. -/
def Layer.fast_slash (l : Layer) : Bool := l.pathExpr == "/" && l.optsEnd == some false

/-! ## Dispatch state -/

/-- Observable events of one dispatch. -/
inductive Event where
  /-- the handler of layer `i` is called; `err` is its error argument (absent
  for `fn(req, res, next)`), `route` tells whether `req.route` is the
  dispatching route at that moment -/
  | invoke (i : Nat) (err : Option JSVal) (route : Bool)
  /-- `done()` is `done none`, `done(v)` is `done (some v)` -/
  | done (arg : Option JSVal)
  /-- `setImmediate(next, err)` -/
  | defer (err : JSVal)
  deriving DecidableEq

/-- Traversal state of one `dispatch` call: the closure variables `idx` and
`sync`, the `req.route` flag, the pending later-turn calls `next(v)`, the
trace, and whether the depth budget of the model ran out. -/
structure DState where
  idx : Nat
  sync : Nat
  route : Bool
  queue : List JSVal
  trace : List Event
  starved : Bool
  deriving DecidableEq

/-- Append an event to the trace. -/
def DState.emit (st : DState) (e : Event) : DState :=
  { st with trace := st.trace ++ [e] }

/-- Run a handler body; `nxt` is the continuation handed to the handler. The
second component is the thrown value, if the body throws. -/
def runBody (nxt : JSVal → DState → DState) : List Action → DState → DState × Option JSVal
  | [], st => (st, none)
  | .callNext v :: rest, st => runBody nxt rest (nxt v st)
  | .callLater v :: rest, st => runBody nxt rest { st with queue := st.queue ++ [v] }
  | .throw v :: _, st => (st, some v)

/-- The method `Layer.handle_request(req, res, next)`; `i` is the position of
the layer, used for the trace only. -/
def Layer.handle_request (l : Layer) (i : Nat) (req : Req)
    (nxt : JSVal → DState → DState) (st : DState) : DState :=
  if l.handle.length > 3 then nxt .undefined st
  else
    match runBody nxt (l.handle.body none { req with route := st.route })
        (st.emit (.invoke i none st.route)) with
    | (st2, none) => st2
    | (st2, some e) => nxt e st2

/-- The method `Layer.handle_error(error, req, res, next)`. -/
def Layer.handle_error (l : Layer) (i : Nat) (req : Req)
    (nxt : JSVal → DState → DState) (error : JSVal) (st : DState) : DState :=
  if l.handle.length ≠ 4 then nxt error st
  else
    match runBody nxt (l.handle.body (some error) { req with route := st.route })
        (st.emit (.invoke i (some error) st.route)) with
    | (st2, none) => st2
    | (st2, some e) => nxt e st2

/-! ## Route -/

/-- Property names every plain object inherits from `Object.prototype`; each
reads as a truthy value. -/
def objectPrototypeKeys : List String :=
  ["constructor", "__defineGetter__", "__defineSetter__", "hasOwnProperty",
   "__lookupGetter__", "__lookupSetter__", "isPrototypeOf", "propertyIsEnumerable",
   "toString", "valueOf", "__proto__", "toLocaleString"]

/-- A route: the layer stack, the base path, and the own keys of
`this.methods` in insertion order (every stored value is `true`). -/
structure Route where
  stack : List Layer
  path : String
  methods : List String

/-- The constructor call `new Route(path)`. -/
def Route.new (path : String) : Route := { stack := [], path := path, methods := [] }

/-- Truthiness of `this.methods[key]` (own keys, then `Object.prototype`). -/
def Route.flag (r : Route) (key : String) : Bool :=
  r.methods.contains key || objectPrototypeKeys.contains key

/-- Own keys after `this.methods[key] = true`. -/
def setFlag (keys : List String) (key : String) : List String :=
  if key == "__proto__" then keys
  else if keys.contains key then keys
  else keys ++ [key]

/-- The method `Route.prototype._handles_method(method)`. -/
def Route._handles_method (r : Route) (method : JSVal) : Bool :=
  if r.flag "_all" then true
  else
    let name : JSVal := match method with
      | .str s => .str (toLowerCase s)
      | v => v
    let name : JSVal := if name == .str "head" && !r.flag "head" then .str "get" else name
    r.flag name.toKey

/-- The method `Route.prototype._options()`. -/
def Route._options (r : Route) : List String :=
  let methods := r.methods
  let methods := if r.flag "get" && !r.flag "head" then methods ++ ["head"] else methods
  methods.map toUpperCase

/-- The private `#getMethod(req)`. -/
def Route.getMethod (r : Route) (req : Req) : JSVal :=
  let method : JSVal := match req.method with
    | .str s => .str (toLowerCase s)
    | v => v
  if method == .str "head" && !r.flag "head" then .str "get" else method

/-- The test `layer.method && layer.method !== method` of `next`. -/
def Layer.skipped (l : Layer) (method : JSVal) : Bool :=
  match l.method with
  | none => false
  | some m => m != "" && JSVal.str m != method

/-- The inner function `next(err)` of `dispatch`. The first argument bounds
the nesting depth of the model; `starved` records that it ran out. -/
def Route.next (r : Route) (req : Req) (method : JSVal) : Nat → JSVal → DState → DState
  | 0, _, st => { st with starved := true }
  | fuel + 1, err, st =>
    if err.truthy && err == .str "route" then st.emit (.done none)
    else if err.truthy && err == .str "router" then st.emit (.done (some err))
    else if st.sync + 1 > 100 then
      { st with sync := st.sync + 1, queue := st.queue ++ [err],
                trace := st.trace ++ [.defer err] }
    else
      match r.stack[st.idx]? with
      | none => { st with sync := st.sync + 1, idx := st.idx + 1,
                          trace := st.trace ++ [.done (some err)] }
      | some layer =>
        let st1 : DState := { st with sync := st.sync + 1, idx := st.idx + 1 }
        let st2 : DState :=
          if layer.skipped method then Route.next r req method fuel err st1
          else if err.truthy then
            layer.handle_error st.idx req (Route.next r req method fuel) err st1
          else layer.handle_request st.idx req (Route.next r req method fuel) st1
        { st2 with sync := 0 }

/-- State at the start of a dispatch. -/
def DState.init (req : Req) : DState :=
  { idx := 0, sync := 0, route := req.route, queue := [], trace := [], starved := false }

/-- The synchronous part of `Route.prototype.dispatch(req, res, done)`: up to
its return. -/
def Route.dispatch (r : Route) (req : Req) : DState :=
  if r.stack.length = 0 then (DState.init req).emit (.done none)
  else
    let st := r.next req (r.getMethod req) (r.stack.length + 1) .undefined (DState.init req)
    { st with route := true }

/-- Later turns: run up to `turns` pending calls `next(v)`, oldest first. -/
def Route.runTasks (r : Route) (req : Req) : Nat → DState → DState
  | 0, st => st
  | turns + 1, st =>
    match st.queue with
    | [] => st
    | v :: q =>
      Route.runTasks r req turns
        (r.next req (r.getMethod req) (r.stack.length + 1) v { st with queue := q })

/-- A dispatch followed by up to `turns` later turns. -/
def Route.run (r : Route) (req : Req) (turns : Nat) : DState :=
  r.runTasks req turns (r.dispatch req)

/-! ## Registration -/

/-- An argument of a registration call: a function, an array of arguments
(nested to any depth), or any other value. -/
inductive Arg where
  | fn (h : Handler)
  | val (v : JSVal)
  | arr (xs : List Arg)

/-- An element of a fully flattened argument list. -/
inductive Item where
  | fn (h : Handler)
  | val (v : JSVal)

mutual
/-- Full flattening of one argument. -/
def Arg.flat : Arg → List Item
  | .fn h => [.fn h]
  | .val v => [.val v]
  | .arr xs => Arg.flatList xs
/-- The call `args.flat(Infinity)`. -/
def Arg.flatList : List Arg → List Item
  | [] => []
  | a :: rest => a.flat ++ Arg.flatList rest
end

/-- An error thrown by a registration call. -/
structure RegError where
  name : String
  message : String
  deriving DecidableEq

/-- The class `CallbackTypeError`: `new CallbackTypeError(handle)`. -/
def CallbackTypeError (handle : JSVal) : RegError :=
  { name := "CallbackTypeError",
    message := "Route.all() requires a callback function but got a " ++ handle.typeTag }

/-- The loop of `Route.prototype.all` over the flattened handlers. The result
is the route after the call and the error thrown, if any. -/
def Route.allLoop (r : Route) : List Item → Route × Option RegError
  | [] => (r, none)
  | .val v :: _ => (r, some (CallbackTypeError v))
  | .fn h :: rest =>
    Route.allLoop
      { r with methods := setFlag r.methods "_all",
               stack := r.stack ++ [{ Layer.new "/" none h with method := none }] } rest

/-- The method `Route.prototype.all(...args)`. -/
def Route.all (r : Route) (args : List Arg) : Route × Option RegError :=
  r.allLoop (Arg.flatList args)

/-- The loop of `Route.prototype[method]` over the flattened handlers. -/
def Route.methodLoop (method : String) (r : Route) : List Item → Route × Option RegError
  | [] => (r, none)
  | .val v :: _ =>
    (r, some { name := "Error",
               message := "Route." ++ method ++ "() requires a callback function but got a "
                 ++ v.typeTag })
  | .fn h :: rest =>
    Route.methodLoop method
      { r with methods := setFlag r.methods method,
               stack := r.stack ++ [{ Layer.new "/" none h with method := some method }] } rest

/-- The method `Route.prototype[method](...args)`, for a name `method` of the
`methods` table. -/
def Route.method (method : String) (r : Route) (args : List Arg) : Route × Option RegError :=
  Route.methodLoop method r (Arg.flatList args)

/-- The shape of the names in the `methods` table (an external package):
non-empty, made of lower-case ASCII letters and hyphens. -/
def isMethodName (m : String) : Bool :=
  m != "" && m.data.all (fun c => c.isLower || c == '-')

/-! ## Observations on a trace -/

/-- Positions of the layers whose handler was called, in order of the calls. -/
def invokedLayers (t : List Event) : List Nat :=
  t.filterMap (fun e => match e with
    | .invoke i _ _ => some i
    | _ => none)

/-- Arguments of the calls of `done`, in order. -/
def doneArgs (t : List Event) : List (Option JSVal) :=
  t.filterMap (fun e => match e with
    | .done a => some a
    | _ => none)

/-- A handler call recorded in a trace is legitimate: the layer exists, the
method filter of `next` let it through, and the arity test of the entry point
chosen by `next` let the handler run. -/
def Event.Legit (r : Route) (method : JSVal) : Event → Prop
  | .invoke i err _ =>
    ∃ l, r.stack[i]? = some l ∧ l.skipped method = false ∧
      match err with
      | none => l.handle.length ≤ 3
      | some e => e.truthy = true ∧ l.handle.length = 4
  | _ => True

/-- Invariant of the dispatch state under arbitrary handler behaviour: the
depth budget has not run out, handlers were called in strictly increasing
layer order, only for layers already fetched, and each call was legitimate. -/
structure DState.Good (r : Route) (method : JSVal) (st : DState) : Prop where
  fed : st.starved = false
  ordered : (invokedLayers st.trace).Pairwise (fun a b => a < b)
  fetched : ∀ i ∈ invokedLayers st.trace, i < st.idx
  legit : ∀ e ∈ st.trace, e.Legit r method

/-! ## Invariants, and the chain of a dispatch under the handler contract -/

/-- A continuation keeps the invariant from position `lo` on. -/
def NextKeeps (r : Route) (method : JSVal) (nxt : JSVal → DState → DState) (lo : Nat) : Prop :=
  ∀ v st, lo ≤ st.idx → st.Good r method →
    (nxt v st).Good r method ∧ st.idx ≤ (nxt v st).idx

/-- What the single signal of a handler body leads to: `k s b v` continues the
chain with the synchronous-step counter `s`, the `req.route` flag `b` and the
pending value `v`. -/
def chainAfter (k : Nat → Bool → JSVal → List Event) (s : Nat) (b : Bool) :
    List Action → List Event
  | [.callNext v] => k (s + 1) b v
  | [.throw v] => k (s + 1) b v
  | [.callLater v] => k 0 true v
  | _ => []

/-- The events of a call `next(err)` and of everything it leads to, over the
layers `ls` still ahead (the first at position `i`), when every handler
signals at most once. `s` is the synchronous-step counter and `b` the
`req.route` flag at the call. -/
def chain (req : Req) (method : JSVal) : List Layer → Nat → Nat → Bool → JSVal → List Event
  | [], _, s, _, err =>
    if err.truthy && err == .str "route" then [.done none]
    else if err.truthy && err == .str "router" then [.done (some err)]
    else if s + 1 > 100 then [.defer err, .done (some err)]
    else [.done (some err)]
  | l :: rest, i, s, b, err =>
    if err.truthy && err == .str "route" then [.done none]
    else if err.truthy && err == .str "router" then [.done (some err)]
    else
      let pre : List Event := if s + 1 > 100 then [.defer err] else []
      let s1 := if s + 1 > 100 then 0 else s
      let b1 := if s + 1 > 100 then true else b
      pre ++
        (if l.skipped method then chain req method rest (i + 1) (s1 + 1) b1 err
        else if err.truthy then
          if l.handle.length ≠ 4 then chain req method rest (i + 1) (s1 + 1) b1 err
          else .invoke i (some err) b1 ::
            chainAfter (chain req method rest (i + 1)) s1 b1
              (l.handle.body (some err) { req with route := b1 })
        else
          if l.handle.length > 3 then chain req method rest (i + 1) (s1 + 1) b1 .undefined
          else .invoke i none b1 ::
            chainAfter (chain req method rest (i + 1)) s1 b1
              (l.handle.body none { req with route := b1 }))

/-- The handler contract: a handler signals at most once per call (one
continuation call, now or later, or one throw). -/
def Route.Contract (r : Route) : Prop :=
  ∀ l ∈ r.stack, ∀ e q, (l.handle.body e q).length ≤ 1

/-- The events still to come from the pending later-turn call, if any. -/
def Route.pending (r : Route) (req : Req) (method : JSVal) (st : DState) : List Event :=
  match st.queue with
  | [] => []
  | v :: _ => chain req method (r.stack.drop st.idx) st.idx 0 true v

/-- Relation between the state `st` at a call `next(err)` and the state `st1`
at its return, under the handler contract. -/
structure Linked (r : Route) (req : Req) (method : JSVal) (st : DState) (err : JSVal)
    (st1 : DState) : Prop where
  fed : st1.starved = false
  route : st1.route = st.route
  mono : st.idx ≤ st1.idx
  single : st1.queue.length ≤ 1
  events : st1.trace ++ r.pending req method st1 =
    st.trace ++ chain req method (r.stack.drop st.idx) st.idx st.sync st.route err
  resume : st1.queue ≠ [] →
    st1.idx ≤ r.stack.length ∧ (st.sync < 100 → st1.sync = 0 ∧ st.idx < st1.idx)

/-- A continuation that links every clean state from position `lo` on. -/
def NextLinks (r : Route) (req : Req) (method : JSVal) (nxt : JSVal → DState → DState)
    (lo : Nat) : Prop :=
  ∀ v st, st.queue = [] → st.starved = false → lo ≤ st.idx → st.idx ≤ r.stack.length →
    Linked r req method st v (nxt v st)

/-- The whole trace of a dispatch under the handler contract. -/
def Route.chainTrace (r : Route) (req : Req) : List Event :=
  if r.stack.length = 0 then [.done none]
  else chain req (r.getMethod req) r.stack 0 0 req.route .undefined

/-! ## Notions used in the statements -/

/-- Handler calls of a trace, in order: the position of the layer and the
error argument (absent for a call `fn(req, res, next)`). -/
def calls (t : List Event) : List (Nat × Option JSVal) :=
  t.filterMap (fun e => match e with
    | .invoke i err _ => some (i, err)
    | _ => none)

/-- The method filter as the specification words it: the tag is absent or
equals the effective method. -/
def Layer.tagMatches (l : Layer) (method : JSVal) : Bool :=
  match l.method with
  | none => true
  | some t => JSVal.str t == method

/-- Positions, in registration order, of the layers of `ls` whose tag is
absent or equals `method`; the first layer of `ls` has position `i`. -/
def matchingFrom (method : JSVal) (i : Nat) (ls : List Layer) : List Nat :=
  ((ls.enumFrom i).filter (fun p => p.2.tagMatches method)).map Prod.fst

/-- The value of the signal of a handler body: the argument of its first
continuation call, or the value it throws. -/
def signalValue : List Action → JSVal
  | [] => .undefined
  | .callNext v :: _ => v
  | .callLater v :: _ => v
  | .throw v :: _ => v

/-- The value signalled by the handler called last in the trace `t`; `cur` when
no handler is called. -/
def lastSignalFrom (r : Route) (req : Req) (cur : JSVal) : List Event → JSVal
  | [] => cur
  | .invoke i a b :: t =>
    lastSignalFrom r req
      (match r.stack[i]? with
        | some l => signalValue (l.handle.body a { req with route := b })
        | none => cur) t
  | _ :: t => lastSignalFrom r req cur t

/-- The value signalled by the handler called last in a dispatch; `undefined`
when no handler was called. -/
def Route.lastSignal (r : Route) (req : Req) (t : List Event) : JSVal :=
  lastSignalFrom r req .undefined t

/-- The argument `arg` of the final call of `done` agrees with the last
signalled value `v`. -/
def FinalArg (v : JSVal) (arg : Option JSVal) : Prop :=
  (v = .str "route" → arg = none) ∧
  (v ≠ .str "route" → v.truthy = true → arg = some v) ∧
  (v.truthy = false → arg = some v ∨ arg = some .undefined)

/-- The trace `t`, produced from the pending value `err`, calls `done` exactly
once, as its last event, with the argument matching the last signal. -/
def Finishes (r : Route) (req : Req) (err : JSVal) (t : List Event) : Prop :=
  ∃ arg, doneArgs t = [arg] ∧ t.getLast? = some (.done arg) ∧
    FinalArg (lastSignalFrom r req err t) arg

/-- Whether a handler body calls its continuation exactly once (at once or
later), whatever it throws. -/
def callsOnce (acts : List Action) : Bool :=
  (acts.filter (fun a => match a with
    | .throw _ => false
    | _ => true)).length == 1

/-- The layer a registration call creates for the function `h`:
`new Layer("/", {}, h)` with its `method` field set to `tag`. -/
def Layer.bound (tag : Option String) (h : Handler) : Layer :=
  { Layer.new "/" none h with method := tag }

/-- Replace every function value by its image under `f`. -/
def Item.mapFn (f : Handler → Handler) : Item → Item
  | .fn h => .fn (f h)
  | .val v => .val v

/-- Replace the handler of every layer by its image under `f`. -/
def Route.mapFn (f : Handler → Handler) (r : Route) : Route :=
  { r with stack := r.stack.map (fun l => { l with handle := f l.handle }) }

/-! ## Sequences of registration calls -/

/-- A registration call on a route. -/
inductive RegCall where
  | all (args : List Arg)
  | method (m : String) (args : List Arg)

/-- The route after a registration call, whether or not the call threw. -/
def Route.apply (r : Route) : RegCall → Route
  | .all args => (r.all args).1
  | .method m args => (Route.method m r args).1

/-- The route after a sequence of registration calls. -/
def Route.applyAll (r : Route) (calls : List RegCall) : Route := calls.foldl Route.apply r

/-- The call names an operation the route has: `all`, or a name of the
`methods` table. -/
def RegCall.valid : RegCall → Prop
  | .all _ => True
  | .method m _ => isMethodName m = true

/-- The key of `this.methods` a layer accounts for: `_all` for an untagged
layer, the tag otherwise. -/
def Layer.flagKey (l : Layer) : String :=
  match l.method with
  | none => "_all"
  | some m => m

/-- The own keys of `this.methods` are exactly the keys the layers account
for. -/
def Route.FlagsMatch (r : Route) : Prop :=
  ∀ key, key ∈ r.methods ↔ ∃ l ∈ r.stack, l.flagKey = key

/-- Every tag of the route is a name of the `methods` table. -/
def Route.TagsValid (r : Route) : Prop :=
  ∀ l ∈ r.stack, ∀ m, l.method = some m → isMethodName m = true

/-! ## Deferrals and depth-limited runs -/

/-- Value of a hexadecimal digit. -/
def hexVal (c : Char) : Option Nat :=
  if '0' ≤ c ∧ c ≤ '9' then some (c.toNat - 48)
  else if 'a' ≤ c ∧ c ≤ 'f' then some (c.toNat - 87)
  else if 'A' ≤ c ∧ c ≤ 'F' then some (c.toNat - 55)
  else none

/-- The loop of the builtin `decodeURIComponent` (the abstract operation
`Decode` of ECMAScript with no reserved characters). `need` is the number of
continuation octets still expected for the code point being assembled, `acc`
its value so far and `low` the least value an encoding of its length may
carry. The result is `none` where the builtin throws a `URIError`. -/
def decodeFrom : List Char → Nat → Nat → Nat → Option (List Char)
  | [], need, _, _ => if need = 0 then some [] else none
  | c :: rest, need, acc, low =>
    if c = '%' then
      match rest with
      | h1 :: h2 :: rest2 =>
        match hexVal h1, hexVal h2 with
        | some a, some b =>
          let byte := 16 * a + b
          if need = 0 then
            if byte < 128 then (decodeFrom rest2 0 0 0).map (fun out => Char.ofNat byte :: out)
            else if 192 ≤ byte ∧ byte < 224 then decodeFrom rest2 1 (byte - 192) 128
            else if 224 ≤ byte ∧ byte < 240 then decodeFrom rest2 2 (byte - 224) 2048
            else if 240 ≤ byte ∧ byte < 248 then decodeFrom rest2 3 (byte - 240) 65536
            else none
          else if 128 ≤ byte ∧ byte < 192 then
            let v := acc * 64 + (byte - 128)
            if need = 1 then
              if low ≤ v ∧ v < 1114112 ∧ ¬(55296 ≤ v ∧ v < 57344) then
                (decodeFrom rest2 0 0 0).map (fun out => Char.ofNat v :: out)
              else none
            else decodeFrom rest2 (need - 1) v low
          else none
        | _, _ => none
      | _ => none
    else if need = 0 then (decodeFrom rest 0 0 0).map (fun out => c :: out)
    else none

/-- The builtin `decodeURIComponent` on a string; `none` is a `URIError`. -/
def decodeURIComponent (s : String) : Option String :=
  (decodeFrom s.data 0 0 0).map String.mk

/-- An error object: its `name`, `message`, and the `status` and `statusCode`
fields when they are set. -/
structure JSError where
  name : String
  message : String
  status : Option Nat
  statusCode : Option Nat
  deriving DecidableEq

deriving instance DecidableEq for Except

/-- The static method `Layer.decodeParam(val)`. -/
def Layer.decodeParam (val : JSVal) : Except JSError JSVal :=
  match val with
  | .str s =>
    if s.length = 0 then .ok val
    else
      match decodeURIComponent s with
      | some d => .ok (.str d)
      | none =>
        .error { name := "URIError", message := "Failed to decode param '" ++ s ++ "'",
                 status := some 400, statusCode := some 400 }
  | v => .ok v

/-- A compiled pattern as `Layer` uses it: `exec(str)` yields, on a match,
the matched substring (`match[0]`) and the capture groups (`match.slice(1)`,
each a string or `undefined`); `fast_star` and `fast_slash` are the flags
`parsePath` sets. -/
structure Regexp where
  exec : String → Option (String × List JSVal)
  fast_star : Bool
  fast_slash : Bool

/-- The external collaborator `pathRegexp(path, keys, options)` (package
`path-to-regexp`), as far as `Layer` relies on it: for a path and the option
`end`, the `exec` of the pattern and the names of the keys it pushes onto
`keys`, one per capture group. -/
structure PathCompiler where
  compile : String → Option Bool → (String → Option (String × List JSVal)) × List String

/-- The static method `Layer.parsePath(path, keys, options)`: the pattern
with its two flags, and the keys. -/
def Layer.parsePath (pathRegexp : PathCompiler) (path : String) (optsEnd : Option Bool) :
    Regexp × List String :=
  ({ exec := (pathRegexp.compile path optsEnd).1,
     fast_star := path == "*",
     fast_slash := path == "/" && optsEnd == some false },
   (pathRegexp.compile path optsEnd).2)

/-- The matching part of a `Layer`: the pattern, the names of the keys, and
the last-match result, the fields `params` (`none` is `undefined`, otherwise
the own properties in insertion order) and `path`. -/
structure PathMatcher where
  regexp : Regexp
  keys : List String
  params : Option (List (String × JSVal))
  path : JSVal

/-- The matching part of `new Layer(path, options, fn)`. -/
def PathMatcher.new (pathRegexp : PathCompiler) (path : String) (optsEnd : Option Bool) :
    PathMatcher :=
  { regexp := (Layer.parsePath pathRegexp path optsEnd).1,
    keys := (Layer.parsePath pathRegexp path optsEnd).2,
    params := none, path := .undefined }

/-- The test `prop in params`: an own property, or one inherited from
`Object.prototype`. -/
def hasProp (ps : List (String × JSVal)) (prop : String) : Bool :=
  ps.any (fun p => p.1 == prop) || objectPrototypeKeys.contains prop

/-- The own properties after `params[prop] = val`, for a value that is a
string or `undefined`. -/
def setProp (ps : List (String × JSVal)) (prop : String) (val : JSVal) :
    List (String × JSVal) :=
  if prop == "__proto__" then ps
  else if ps.any (fun p => p.1 == prop) then
    ps.map (fun p => if p.1 == prop then (prop, val) else p)
  else ps ++ [(prop, val)]

/-- The own property `prop` of `params`, if there is one. -/
def getProp (ps : List (String × JSVal)) (prop : String) : Option JSVal :=
  (ps.find? (fun p => p.1 == prop)).map Prod.snd

/-- The `TypeError` of reading `key.name` when `keys` has no entry for a
capture group. -/
def keyTypeError : JSError :=
  { name := "TypeError", message := "Cannot read properties of undefined (reading 'name')",
    status := none, statusCode := none }

/-- The loop of `match` over the capture groups; `index` counts from 1. The
result is the `params` object when the loop ends and the error thrown, if
any. -/
def matchLoop (keys : List String) :
    Nat → List JSVal → List (String × JSVal) → List (String × JSVal) × Option JSError
  | _, [], params => (params, none)
  | index, matchValue :: rest, params =>
    match keys[index - 1]? with
    | none => (params, some keyTypeError)
    | some prop =>
      match Layer.decodeParam matchValue with
      | .error e => (params, some e)
      | .ok val =>
        matchLoop keys (index + 1) rest
          (if val != .undefined || !hasProp params prop then setProp params prop val
           else params)

/-- The method `Layer.prototype.match(path)`: the matcher after the call, and
the value returned or the error thrown. -/
def PathMatcher.matchPath (m : PathMatcher) (path : JSVal) :
    PathMatcher × Except JSError Bool :=
  if !path.truthy then (m, .ok false)
  else if m.regexp.fast_slash then ({ m with params := some [], path := .str "" }, .ok true)
  else if m.regexp.fast_star then
    match Layer.decodeParam path with
    | .error e => (m, .error e)
    | .ok v => ({ m with params := some [("0", v)], path := path }, .ok true)
  else
    match m.regexp.exec path.toKey with
    | none => ({ m with params := none, path := .undefined }, .ok false)
    | some (whole, groups) =>
      match matchLoop m.keys 1 groups [] with
      | (params, none) => ({ m with params := some params, path := .str whole }, .ok true)
      | (params, some e) => ({ m with params := some params, path := .str whole }, .error e)

/-- What one round of the loop of `match` does to `params` for a capture
group named `g.1` with the decoded value `g.2`. -/
def storeGroup (ps : List (String × JSVal)) (g : String × JSVal) : List (String × JSVal) :=
  if g.2 != .undefined || !hasProp ps g.1 then setProp ps g.1 g.2 else ps

/-- The decoded value of the last capture group named `k` whose decoded value
is not `undefined`, if there is one. -/
def lastDefined (k : String) : List (String × JSVal) → Option JSVal
  | [] => none
  | g :: rest =>
    match lastDefined k rest with
    | some w => some w
    | none => if g.1 == k && g.2 != .undefined then some g.2 else none

/-- The decoded value of the first capture group named `k` whose decoded value
is not `undefined`, if there is one. -/
def firstDefined (k : String) : List (String × JSVal) → Option JSVal
  | [] => none
  | g :: rest => if g.1 == k && g.2 != .undefined then some g.2 else firstDefined k rest

/-- The name `_handles_method` and `#getMethod` look up for the method string
`s`: the lower-cased string, with `head` replaced by `get` when the head flag
is not set. -/
def Route.effectiveName (r : Route) (s : String) : String :=
  if toLowerCase s = "head" ∧ r.flag "head" = false then "get" else toLowerCase s

/-! ## Example handlers, routes and matchers -/

/-- A normal handler that calls `next()` synchronously. -/
def exPass : Handler := { length := 3, body := fun _ _ => [.callNext .undefined] }

/-- A route with a `get` layer, a `post` layer and an untagged layer, each
bound to `exPass`. -/
def exRoute : Route :=
  { stack := [{ Layer.new "/" none exPass with method := some "get" },
              { Layer.new "/" none exPass with method := some "post" },
              { Layer.new "/" none exPass with method := none }],
    path := "/x", methods := ["get", "post", "_all"] }

/-- An error handler (4 declared parameters) that calls `next()`. -/
def exRecover : Handler := { length := 4, body := fun _ _ => [.callNext .undefined] }

/-- A normal handler that calls `next()` and then throws the string `boom`. -/
def exCallThenThrow : Handler :=
  { length := 3, body := fun _ _ => [.callNext .undefined, .throw (.str "boom")] }

/-- A route with the single untagged layer bound to `exCallThenThrow`. -/
def exTwiceRoute : Route :=
  { stack := [{ Layer.new "/" none exCallThenThrow with method := none }],
    path := "/x", methods := ["_all"] }

/-- A normal handler that calls `next(0)`. -/
def exPassZero : Handler := { length := 3, body := fun _ _ => [.callNext (.num 0)] }

/-- A route whose second handler passes the falsy value `0`, with an unused
error handler last. -/
def exZeroRoute : Route :=
  { stack := [{ Layer.new "/" none exPass with method := none },
              { Layer.new "/" none exPassZero with method := none },
              { Layer.new "/" none exRecover with method := none }],
    path := "/x", methods := ["_all"] }

/-- A route with the single untagged layer bound to `exPassZero`. -/
def exFalsyRoute : Route :=
  { stack := [{ Layer.new "/" none exPassZero with method := none }],
    path := "/x", methods := ["_all"] }

/-- A nested argument list: `[exPass, [exRecover]]` and then `exPass`. -/
def exNested : List Arg := [.arr [.fn exPass, .arr [.fn exRecover]], .arr [], .fn exPass]

/-- A route with two `get` layers and a `head` layer in between. -/
def exHeadRoute : Route :=
  (Route.new "/x").applyAll
    [.method "get" [.fn exPass], .method "head" [.fn exPass], .method "get" [.fn exPass]]

/-- A route with two `get` layers. -/
def exGetRoute : Route :=
  (Route.new "/x").applyAll [.method "get" [.fn exPass, .val .null], .method "get" [.fn exPass]]

/-- A route on which `all` and then `get` were called with one function each. -/
def exAllRoute : Route :=
  (Route.new "/x").applyAll [.all [.fn exPass], .method "get" [.fn exPass]]

/-- A pattern compiler that matches nothing and declares no key. -/
def exCompiler : PathCompiler := { compile := fun _ _ => (fun _ => none, []) }

/-- A pattern compiler whose pattern has two capture groups, both named `id`,
and matches every string with the captures `a` and `b`. -/
def exDupCompiler : PathCompiler :=
  { compile := fun _ _ => (fun s => some (s, [.str "a", .str "b"]), ["id", "id"]) }

/-- A matcher for the path `*`. -/
def exStar : PathMatcher := PathMatcher.new exCompiler "*" none

/-- A pattern compiler whose pattern has three capture groups named `id`,
`id` and `tail`, and matches every string with the captures `a`, `undefined`
and `undefined`. -/
def exOptCompiler : PathCompiler :=
  { compile := fun _ _ =>
      (fun s => some (s, [.str "a", .undefined, .undefined]), ["id", "id", "tail"]) }

/-- A handler that declares 5 parameters. -/
def exFive : Handler := { length := 5, body := fun _ _ => [.callNext .undefined] }

/-- A route with a 5-parameter handler, an error handler and a normal
handler. -/
def exArityRoute : Route :=
  { stack := [{ Layer.new "/" none exFive with method := none },
              { Layer.new "/" none exRecover with method := none },
              { Layer.new "/" none exPass with method := none }],
    path := "/x", methods := ["_all"] }

/-! # Theorems -/

theorem invokedLayers_append (a b : List Event) :
    invokedLayers (a ++ b) = invokedLayers a ++ invokedLayers b := by
  simp [invokedLayers, List.filterMap_append]

theorem doneArgs_append (a b : List Event) :
    doneArgs (a ++ b) = doneArgs a ++ doneArgs b := by
  simp [doneArgs, List.filterMap_append]

/-- Appending an event that is not a handler call keeps the invariant. -/
theorem DState.Good.emit_other {r : Route} {method : JSVal} {st : DState}
    (h : st.Good r method) (e : Event) (he : invokedLayers [e] = [])
    (hl : e.Legit r method) : (st.emit e).Good r method := by
  refine ⟨h.fed, ?_, ?_, ?_⟩
  · simpa [DState.emit, invokedLayers_append, he] using h.ordered
  · simpa [DState.emit, invokedLayers_append, he] using h.fetched
  · intro x hx
    simp only [DState.emit, List.mem_append, List.mem_singleton] at hx
    rcases hx with hx | hx
    · exact h.legit x hx
    · exact hx ▸ hl

theorem runBody_keeps {r : Route} {method : JSVal} {nxt : JSVal → DState → DState} {lo : Nat}
    (hn : NextKeeps r method nxt lo) (acts : List Action) :
    ∀ st, lo ≤ st.idx → st.Good r method →
      (runBody nxt acts st).1.Good r method ∧ st.idx ≤ (runBody nxt acts st).1.idx := by
  induction acts with
  | nil => intro st _ h; exact ⟨h, le_refl _⟩
  | cons a rest ih =>
    intro st hlo h
    cases a with
    | callNext v =>
      have h1 := hn v st hlo h
      have h2 := ih (nxt v st) (le_trans hlo h1.2) h1.1
      exact ⟨h2.1, le_trans h1.2 h2.2⟩
    | callLater v =>
      have hg : DState.Good r method { st with queue := st.queue ++ [v] } :=
        ⟨h.fed, h.ordered, h.fetched, h.legit⟩
      exact ih _ hlo hg
    | throw v => exact ⟨h, le_refl _⟩

theorem DState.Good.withInvoke {r : Route} {method : JSVal} {st : DState}
    (h : st.Good r method) {l : Layer} (hl : r.stack[st.idx]? = some l)
    (hs : l.skipped method = false) (err : Option JSVal) (b : Bool) (s : Nat)
    (ha : match err with
      | none => l.handle.length ≤ 3
      | some e => e.truthy = true ∧ l.handle.length = 4) :
    (DState.emit { st with sync := s, idx := st.idx + 1 } (.invoke st.idx err b)).Good
      r method := by
  refine ⟨h.fed, ?_, ?_, ?_⟩
  · simp only [DState.emit, invokedLayers_append, List.pairwise_append]
    refine ⟨h.ordered, by simp [invokedLayers], ?_⟩
    intro a ha' b' hb'
    simp [invokedLayers] at hb'
    subst hb'
    exact h.fetched a ha'
  · intro i hi
    simp only [DState.emit, invokedLayers_append, List.mem_append] at hi
    rcases hi with hi | hi
    · exact Nat.lt_succ_of_lt (h.fetched i hi)
    · simp [invokedLayers] at hi
      subst hi
      exact Nat.lt_succ_self _
  · intro x hx
    simp only [DState.emit, List.mem_append, List.mem_singleton] at hx
    rcases hx with hx | hx
    · exact h.legit x hx
    · subst hx
      exact ⟨l, hl, hs, ha⟩

theorem DState.Good.bump {r : Route} {method : JSVal} {st : DState}
    (h : st.Good r method) (s : Nat) :
    DState.Good r method { st with sync := s, idx := st.idx + 1 } :=
  ⟨h.fed, h.ordered, fun i hi => Nat.lt_succ_of_lt (h.fetched i hi), h.legit⟩

theorem DState.Good.setSync {r : Route} {method : JSVal} {st : DState}
    (h : st.Good r method) (s : Nat) :
    DState.Good r method { st with sync := s } :=
  ⟨h.fed, h.ordered, h.fetched, h.legit⟩

theorem handle_request_keeps {r : Route} {method : JSVal} {st : DState} {l : Layer}
    {nxt : JSVal → DState → DState} (req : Req)
    (hg : st.Good r method) (hl : r.stack[st.idx]? = some l) (hs : l.skipped method = false)
    (hn : NextKeeps r method nxt (st.idx + 1)) (s : Nat) :
    (l.handle_request st.idx req nxt { st with sync := s, idx := st.idx + 1 }).Good r method ∧
      st.idx ≤ (l.handle_request st.idx req nxt { st with sync := s, idx := st.idx + 1 }).idx := by
  unfold Layer.handle_request
  by_cases hlen : l.handle.length > 3
  · rw [if_pos hlen]
    have := hn .undefined { st with sync := s, idx := st.idx + 1 } (le_refl _) (hg.bump _)
    exact ⟨this.1, le_trans (Nat.le_succ _) this.2⟩
  · rw [if_neg hlen]
    have hi := hg.withInvoke hl hs none st.route s (by simpa using hlen)
    have hb := runBody_keeps hn (l.handle.body none { req with route := st.route }) _
      (le_refl _) hi
    dsimp only at hb ⊢
    generalize runBody nxt _ _ = res at hb ⊢
    rcases res with ⟨st2, _ | e⟩
    · exact ⟨hb.1, le_trans (Nat.le_succ _) hb.2⟩
    · have := hn e st2 hb.2 hb.1
      exact ⟨this.1, le_trans (Nat.le_succ _) (le_trans hb.2 this.2)⟩

theorem handle_error_keeps {r : Route} {method : JSVal} {st : DState} {l : Layer}
    {nxt : JSVal → DState → DState} (req : Req) (err : JSVal) (he : err.truthy = true)
    (hg : st.Good r method) (hl : r.stack[st.idx]? = some l) (hs : l.skipped method = false)
    (hn : NextKeeps r method nxt (st.idx + 1)) (s : Nat) :
    (l.handle_error st.idx req nxt err { st with sync := s, idx := st.idx + 1 }).Good r method ∧
      st.idx ≤
        (l.handle_error st.idx req nxt err { st with sync := s, idx := st.idx + 1 }).idx := by
  unfold Layer.handle_error
  by_cases hlen : l.handle.length ≠ 4
  · rw [if_pos hlen]
    have := hn err { st with sync := s, idx := st.idx + 1 } (le_refl _) (hg.bump _)
    exact ⟨this.1, le_trans (Nat.le_succ _) this.2⟩
  · rw [if_neg hlen]
    have hi := hg.withInvoke hl hs (some err) st.route s ⟨he, by simpa using hlen⟩
    have hb := runBody_keeps hn (l.handle.body (some err) { req with route := st.route }) _
      (le_refl _) hi
    dsimp only at hb ⊢
    generalize runBody nxt _ _ = res at hb ⊢
    rcases res with ⟨st2, _ | e⟩
    · exact ⟨hb.1, le_trans (Nat.le_succ _) hb.2⟩
    · have := hn e st2 hb.2 hb.1
      exact ⟨this.1, le_trans (Nat.le_succ _) (le_trans hb.2 this.2)⟩

/-- Unfolding of `next` at a positive budget. -/
theorem Route.next_succ (r : Route) (req : Req) (method : JSVal) (fuel : Nat) (err : JSVal)
    (st : DState) :
    r.next req method (fuel + 1) err st =
      if err.truthy && err == .str "route" then st.emit (.done none)
      else if err.truthy && err == .str "router" then st.emit (.done (some err))
      else if st.sync + 1 > 100 then
        { st with sync := st.sync + 1, queue := st.queue ++ [err],
                  trace := st.trace ++ [.defer err] }
      else
        match r.stack[st.idx]? with
        | none => { st with sync := st.sync + 1, idx := st.idx + 1,
                            trace := st.trace ++ [.done (some err)] }
        | some layer =>
          { (if layer.skipped method then
              r.next req method fuel err { st with sync := st.sync + 1, idx := st.idx + 1 }
            else if err.truthy then
              layer.handle_error st.idx req (r.next req method fuel) err
                { st with sync := st.sync + 1, idx := st.idx + 1 }
            else layer.handle_request st.idx req (r.next req method fuel)
                { st with sync := st.sync + 1, idx := st.idx + 1 }) with sync := 0 } := rfl

/-- With a budget above the number of layers left, `next` keeps the invariant
and never moves the cursor back, whatever the handlers do. -/
theorem Route.next_keeps (r : Route) (req : Req) (method : JSVal) :
    ∀ fuel lo, r.stack.length - lo < fuel → NextKeeps r method (r.next req method fuel) lo := by
  intro fuel
  induction fuel with
  | zero => intro lo h; exact absurd h (Nat.not_lt_zero _)
  | succ fuel ih =>
    intro lo hfuel err st hlo hg
    rw [Route.next_succ]
    by_cases h1 : (err.truthy && err == .str "route") = true
    · rw [if_pos h1]; exact ⟨hg.emit_other _ rfl trivial, le_refl _⟩
    rw [if_neg h1]
    by_cases h2 : (err.truthy && err == .str "router") = true
    · rw [if_pos h2]; exact ⟨hg.emit_other _ rfl trivial, le_refl _⟩
    rw [if_neg h2]
    by_cases h3 : st.sync + 1 > 100
    · rw [if_pos h3]
      have hq : DState.Good r method
          { st with sync := st.sync + 1, queue := st.queue ++ [err] } :=
        ⟨hg.fed, hg.ordered, hg.fetched, hg.legit⟩
      exact ⟨hq.emit_other (.defer err) rfl trivial, le_refl _⟩
    rw [if_neg h3]
    cases hl : r.stack[st.idx]? with
    | none =>
      exact ⟨(hg.bump (st.sync + 1)).emit_other (.done (some err)) rfl trivial, Nat.le_succ _⟩
    | some layer =>
      have hlt : st.idx < r.stack.length := (List.getElem?_eq_some.1 hl).1
      have hk : NextKeeps r method (r.next req method fuel) (st.idx + 1) :=
        ih (st.idx + 1) (by omega)
      dsimp only
      by_cases hs : layer.skipped method = true
      · rw [if_pos hs]
        have := hk err { st with sync := st.sync + 1, idx := st.idx + 1 } (le_refl _)
          (hg.bump _)
        exact ⟨this.1.setSync 0, le_trans (Nat.le_succ _) this.2⟩
      rw [if_neg hs]
      have hs' : layer.skipped method = false := by simpa using hs
      by_cases he : err.truthy = true
      · rw [if_pos he]
        have := handle_error_keeps req err he hg hl hs' hk (st.sync + 1)
        exact ⟨this.1.setSync 0, this.2⟩
      · rw [if_neg he]
        have := handle_request_keeps req hg hl hs' hk (st.sync + 1)
        exact ⟨this.1.setSync 0, this.2⟩

theorem DState.Good.init (r : Route) (method : JSVal) (req : Req) :
    (DState.init req).Good r method :=
  ⟨rfl, by simp [DState.init, invokedLayers], by simp [DState.init, invokedLayers],
    by simp [DState.init]⟩

/-- The depth budget used by `dispatch` and by every later turn is never
exhausted, whatever the handlers do. -/
theorem Route.next_not_starved (r : Route) (req : Req) (method : JSVal) (err : JSVal)
    (st : DState) (h : st.Good r method) :
    (r.next req method (r.stack.length + 1) err st).starved = false :=
  (Route.next_keeps r req method (r.stack.length + 1) 0 (by omega) err st (Nat.zero_le _) h).1.fed

theorem Route.dispatch_good (r : Route) (req : Req) :
    (r.dispatch req).Good r (r.getMethod req) := by
  unfold Route.dispatch
  split_ifs with h
  · exact (DState.Good.init r _ req).emit_other _ rfl trivial
  · have := (Route.next_keeps r req (r.getMethod req) (r.stack.length + 1) 0 (by omega)
      .undefined (DState.init req) (Nat.zero_le _) (DState.Good.init r _ req)).1
    exact ⟨this.fed, this.ordered, this.fetched, this.legit⟩

theorem Route.runTasks_good (r : Route) (req : Req) :
    ∀ turns st, st.Good r (r.getMethod req) → (r.runTasks req turns st).Good r (r.getMethod req) := by
  intro turns
  induction turns with
  | zero => intro st h; exact h
  | succ n ih =>
    intro st h
    unfold Route.runTasks
    cases hq : st.queue with
    | nil => exact h
    | cons v q =>
      dsimp only
      apply ih
      exact (Route.next_keeps r req (r.getMethod req) (r.stack.length + 1) 0 (by omega)
        v { st with queue := q } (Nat.zero_le _) ⟨h.fed, h.ordered, h.fetched, h.legit⟩).1

theorem Route.run_good (r : Route) (req : Req) (turns : Nat) :
    (r.run req turns).Good r (r.getMethod req) :=
  Route.runTasks_good r req turns _ (Route.dispatch_good r req)

theorem signal_linked {r : Route} {req : Req} {method : JSVal}
    {nxt : JSVal → DState → DState} {lo : Nat} (hn : NextLinks r req method nxt lo)
    (acts : List Action) (hlen : acts.length ≤ 1) (st : DState) (hq : st.queue = [])
    (hf : st.starved = false) (hlo : lo ≤ st.idx) (hle : st.idx ≤ r.stack.length)
    (s : Nat) (hs : st.sync = s + 1) (res : DState)
    (hres : res = match runBody nxt acts st with
      | (st2, none) => st2
      | (st2, some e) => nxt e st2) :
    res.starved = false ∧ res.route = st.route ∧ st.idx ≤ res.idx ∧ res.queue.length ≤ 1 ∧
      res.trace ++ r.pending req method res =
        st.trace ++ chainAfter (chain req method (r.stack.drop st.idx) st.idx) s st.route acts ∧
      (res.queue ≠ [] → res.idx ≤ r.stack.length) := by
  match acts, hlen with
  | [], _ =>
    simp only [runBody] at hres
    subst hres
    simp [Route.pending, hq, hf, chainAfter]
  | [.callNext v], _ =>
    simp only [runBody] at hres
    subst hres
    have h := hn v st hq hf hlo hle
    refine ⟨h.fed, h.route, h.mono, h.single, ?_, fun hne => (h.resume hne).1⟩
    rw [h.events, hs]; rfl
  | [.throw v], _ =>
    simp only [runBody] at hres
    subst hres
    have h := hn v st hq hf hlo hle
    refine ⟨h.fed, h.route, h.mono, h.single, ?_, fun hne => (h.resume hne).1⟩
    rw [h.events, hs]; rfl
  | [.callLater v], _ =>
    simp only [runBody] at hres
    subst hres
    simp [Route.pending, hq, hf, chainAfter, hle]
  | _ :: _ :: _, h => simp at h

theorem chain_route (req : Req) (method : JSVal) (ls : List Layer) (i s : Nat) (b : Bool)
    (err : JSVal) (h : (err.truthy && err == .str "route") = true) :
    chain req method ls i s b err = [.done none] := by
  cases ls <;> simp [chain, h]

theorem chain_router (req : Req) (method : JSVal) (ls : List Layer) (i s : Nat) (b : Bool)
    (err : JSVal) (h1 : ¬(err.truthy && err == .str "route") = true)
    (h : (err.truthy && err == .str "router") = true) :
    chain req method ls i s b err = [.done (some err)] := by
  cases ls <;> simp [chain, h, h1]

theorem chain_defer (req : Req) (method : JSVal) (ls : List Layer) (i s : Nat) (b : Bool)
    (err : JSVal) (h1 : ¬(err.truthy && err == .str "route") = true)
    (h2 : ¬(err.truthy && err == .str "router") = true) (h3 : s + 1 > 100) :
    chain req method ls i s b err = .defer err :: chain req method ls i 0 true err := by
  cases ls <;> simp [chain, h1, h2, h3]

theorem chain_nil (req : Req) (method : JSVal) (i s : Nat) (b : Bool)
    (err : JSVal) (h1 : ¬(err.truthy && err == .str "route") = true)
    (h2 : ¬(err.truthy && err == .str "router") = true) (h3 : ¬s + 1 > 100) :
    chain req method [] i s b err = [.done (some err)] := by
  simp [chain, h1, h2, h3]

theorem chain_cons (req : Req) (method : JSVal) (l : Layer) (rest : List Layer) (i s : Nat)
    (b : Bool) (err : JSVal) (h1 : ¬(err.truthy && err == .str "route") = true)
    (h2 : ¬(err.truthy && err == .str "router") = true) (h3 : ¬s + 1 > 100) :
    chain req method (l :: rest) i s b err =
      if l.skipped method then chain req method rest (i + 1) (s + 1) b err
      else if err.truthy then
        if l.handle.length ≠ 4 then chain req method rest (i + 1) (s + 1) b err
        else .invoke i (some err) b ::
          chainAfter (chain req method rest (i + 1)) s b
            (l.handle.body (some err) { req with route := b })
      else
        if l.handle.length > 3 then chain req method rest (i + 1) (s + 1) b .undefined
        else .invoke i none b ::
          chainAfter (chain req method rest (i + 1)) s b
            (l.handle.body none { req with route := b }) := by
  simp [chain, h1, h2, h3]

theorem linked_of_visit {r : Route} {req : Req} {method : JSVal} {st res : DState}
    {err : JSVal} (tail : List Event)
    (h : res.starved = false ∧ res.route = st.route ∧ st.idx + 1 ≤ res.idx ∧
      res.queue.length ≤ 1 ∧ res.trace ++ r.pending req method res = st.trace ++ tail ∧
      (res.queue ≠ [] → res.idx ≤ r.stack.length))
    (hchain : chain req method (r.stack.drop st.idx) st.idx st.sync st.route err = tail) :
    Linked r req method st err { res with sync := 0 } := by
  obtain ⟨h1, h2, h3, h4, h5, h6⟩ := h
  refine ⟨h1, h2, by simp only; omega, h4, ?_, ?_⟩
  · rw [hchain, ← h5]; rfl
  · intro hne
    exact ⟨h6 hne, fun _ => ⟨rfl, by simp only; omega⟩⟩

theorem Linked.tuple {r : Route} {req : Req} {method : JSVal} {st st0 res : DState}
    {err : JSVal} (h : Linked r req method st err res) (hi : st.idx = st0.idx + 1)
    (hr : st.route = st0.route) (ht : st.trace = st0.trace) :
    res.starved = false ∧ res.route = st0.route ∧ st0.idx + 1 ≤ res.idx ∧
      res.queue.length ≤ 1 ∧
      res.trace ++ r.pending req method res =
        st0.trace ++ chain req method (r.stack.drop (st0.idx + 1)) (st0.idx + 1) st.sync
          st0.route err ∧
      (res.queue ≠ [] → res.idx ≤ r.stack.length) := by
  refine ⟨h.fed, hr ▸ h.route, hi ▸ h.mono, h.single, ?_, fun hne => (h.resume hne).1⟩
  rw [h.events, hi, hr, ht]

/-- Under the handler contract, a call `next(err)` made with no later-turn call
pending produces the events of `chain`, up to the events of the one
later-turn call it may leave pending. -/
theorem Route.next_links (r : Route) (req : Req) (method : JSVal) (hc : r.Contract) :
    ∀ fuel lo, r.stack.length - lo < fuel →
      NextLinks r req method (r.next req method fuel) lo := by
  intro fuel
  induction fuel with
  | zero => intro lo h; exact absurd h (Nat.not_lt_zero _)
  | succ fuel ih =>
    intro lo hfuel err st hq hf hlo hle
    rw [Route.next_succ]
    by_cases h1 : (err.truthy && err == .str "route") = true
    · rw [if_pos h1]
      refine ⟨hf, rfl, le_refl _, by simp [DState.emit, hq], ?_, ?_⟩
      · rw [chain_route _ _ _ _ _ _ _ h1]
        simp [DState.emit, Route.pending, hq]
      · intro hne; simp [DState.emit, hq] at hne
    rw [if_neg h1]
    by_cases h2 : (err.truthy && err == .str "router") = true
    · rw [if_pos h2]
      refine ⟨hf, rfl, le_refl _, by simp [DState.emit, hq], ?_, ?_⟩
      · rw [chain_router _ _ _ _ _ _ _ h1 h2]
        simp [DState.emit, Route.pending, hq]
      · intro hne; simp [DState.emit, hq] at hne
    rw [if_neg h2]
    by_cases h3 : st.sync + 1 > 100
    · rw [if_pos h3]
      refine ⟨hf, rfl, le_refl _, by simp [hq], ?_, ?_⟩
      · rw [chain_defer _ _ _ _ _ _ _ h1 h2 h3]
        simp [Route.pending, hq]
      · intro _
        exact ⟨hle, fun hlt => by omega⟩
    rw [if_neg h3]
    cases hl : r.stack[st.idx]? with
    | none =>
      have hd : r.stack.drop st.idx = [] :=
        List.drop_eq_nil_of_le (List.getElem?_eq_none_iff.1 hl)
      refine ⟨hf, rfl, Nat.le_succ _, by simp [hq], ?_, ?_⟩
      · rw [hd, chain_nil _ _ _ _ _ _ h1 h2 h3]
        simp [Route.pending, hq]
      · intro hne; simp [hq] at hne
    | some layer =>
      obtain ⟨hlt, hget⟩ := List.getElem?_eq_some.1 hl
      have hd : r.stack.drop st.idx = layer :: r.stack.drop (st.idx + 1) := by
        rw [← hget]; exact List.drop_eq_getElem_cons hlt
      have hmem : layer ∈ r.stack := hget ▸ List.getElem_mem _
      have hk : NextLinks r req method (r.next req method fuel) (st.idx + 1) :=
        ih (st.idx + 1) (by omega)
      have hcons := chain_cons req method layer (r.stack.drop (st.idx + 1)) st.idx st.sync
        st.route err h1 h2 h3
      rw [← hd] at hcons
      dsimp only
      by_cases hs : layer.skipped method = true
      · rw [if_pos hs]
        rw [if_pos hs] at hcons
        exact linked_of_visit _
          ((hk err { st with sync := st.sync + 1, idx := st.idx + 1 } hq hf (le_refl _)
            hlt).tuple rfl rfl rfl) hcons
      rw [if_neg hs]
      rw [if_neg hs] at hcons
      by_cases he : err.truthy = true
      · rw [if_pos he]
        rw [if_pos he] at hcons
        unfold Layer.handle_error
        by_cases h4 : layer.handle.length ≠ 4
        · rw [if_pos h4]
          rw [if_pos h4] at hcons
          exact linked_of_visit _
            ((hk err { st with sync := st.sync + 1, idx := st.idx + 1 } hq hf (le_refl _)
              hlt).tuple rfl rfl rfl) hcons
        · rw [if_neg h4]
          rw [if_neg h4] at hcons
          have := signal_linked hk (layer.handle.body (some err) { req with route := st.route })
            (hc layer hmem _ _)
            (DState.emit { st with sync := st.sync + 1, idx := st.idx + 1 }
              (.invoke st.idx (some err) st.route)) hq hf (le_refl _) hlt st.sync rfl _ rfl
          refine linked_of_visit _ ?_ hcons
          obtain ⟨a1, a2, a3, a4, a5, a6⟩ := this
          exact ⟨a1, a2, a3, a4, a5.trans (by simp [DState.emit]), a6⟩
      · rw [if_neg he]
        rw [if_neg he] at hcons
        unfold Layer.handle_request
        by_cases h4 : layer.handle.length > 3
        · rw [if_pos h4]
          rw [if_pos h4] at hcons
          exact linked_of_visit _
            ((hk .undefined { st with sync := st.sync + 1, idx := st.idx + 1 } hq hf (le_refl _)
              hlt).tuple rfl rfl rfl) hcons
        · rw [if_neg h4]
          rw [if_neg h4] at hcons
          have := signal_linked hk (layer.handle.body none { req with route := st.route })
            (hc layer hmem _ _)
            (DState.emit { st with sync := st.sync + 1, idx := st.idx + 1 }
              (.invoke st.idx none st.route)) hq hf (le_refl _) hlt st.sync rfl _ rfl
          refine linked_of_visit _ ?_ hcons
          obtain ⟨a1, a2, a3, a4, a5, a6⟩ := this
          exact ⟨a1, a2, a3, a4, a5.trans (by simp [DState.emit]), a6⟩

theorem Route.runTasks_links (r : Route) (req : Req) (hc : r.Contract) :
    ∀ turns st, st.starved = false → st.queue.length ≤ 1 →
      (st.queue ≠ [] → st.sync = 0 ∧ st.route = true ∧ st.idx ≤ r.stack.length ∧
        r.stack.length - st.idx < turns) →
      (r.runTasks req turns st).queue = [] ∧ (r.runTasks req turns st).starved = false ∧
        (r.runTasks req turns st).trace = st.trace ++ r.pending req (r.getMethod req) st := by
  intro turns
  induction turns with
  | zero =>
    intro st hf _ hq
    have : st.queue = [] := by
      by_contra hne
      exact absurd (hq hne).2.2.2 (Nat.not_lt_zero _)
    simp [Route.runTasks, this, hf, Route.pending]
  | succ n ih =>
    intro st hf h1 hq
    unfold Route.runTasks
    cases hqq : st.queue with
    | nil => simp [hf, hqq, Route.pending]
    | cons v q =>
      have hq' := hq (by simp [hqq])
      have hqnil : q = [] := by
        rw [hqq] at h1
        simpa using h1
      subst hqnil
      obtain ⟨hsync, hroute, hidx, hturn⟩ := hq'
      have hl := Route.next_links r req (r.getMethod req) hc (r.stack.length + 1) 0 (by omega)
        v { st with queue := [] } rfl hf (Nat.zero_le _) hidx
      dsimp only
      have hrec := ih _ hl.fed hl.single (fun hne => by
        obtain ⟨a, b⟩ := hl.resume hne
        have b' := b (by simp only [hsync]; omega)
        refine ⟨b'.1, by rw [hl.route]; exact hroute, a, ?_⟩
        have := b'.2
        simp only at this
        omega)
      refine ⟨hrec.1, hrec.2.1, ?_⟩
      rw [hrec.2.2, hl.events]
      simp [Route.pending, hqq, hsync, hroute]

/-- Under the handler contract, once `stack.length` later turns have been
allowed, nothing is pending and the trace of the dispatch is `chainTrace`. -/
theorem Route.run_chain (r : Route) (req : Req) (hc : r.Contract) (turns : Nat)
    (ht : r.stack.length ≤ turns) :
    (r.run req turns).queue = [] ∧ (r.run req turns).starved = false ∧
      (r.run req turns).trace = r.chainTrace req := by
  unfold Route.run Route.dispatch Route.chainTrace
  by_cases h0 : r.stack.length = 0
  · rw [if_pos h0, if_pos h0]
    cases turns <;> simp [Route.runTasks, DState.emit, DState.init]
  · rw [if_neg h0, if_neg h0]
    have hl := Route.next_links r req (r.getMethod req) hc (r.stack.length + 1) 0 (by omega)
      .undefined (DState.init req) rfl rfl (Nat.zero_le _) (Nat.zero_le _)
    have hrec := Route.runTasks_links r req hc turns
      { r.next req (r.getMethod req) (r.stack.length + 1) .undefined (DState.init req) with
        route := true } hl.fed hl.single (fun hne => by
        obtain ⟨a, b⟩ := hl.resume hne
        have b' := b (by simp [DState.init])
        refine ⟨b'.1, rfl, a, ?_⟩
        have := b'.2
        simp only [DState.init] at this
        simp only
        omega)
    dsimp only
    refine ⟨hrec.1, hrec.2.1, ?_⟩
    rw [hrec.2.2]
    have := hl.events
    simp only [DState.init, List.nil_append, List.drop_zero] at this
    rw [← this]
    rfl

theorem calls_append (a b : List Event) : calls (a ++ b) = calls a ++ calls b := by
  simp [calls, List.filterMap_append]

theorem Layer.skipped_eq_not_tagMatches (l : Layer) (method : JSVal)
    (h : l.method ≠ some "") : l.skipped method = !l.tagMatches method := by
  unfold Layer.skipped Layer.tagMatches
  cases hm : l.method with
  | none => rfl
  | some t =>
    have : t ≠ "" := fun h' => h (by rw [hm, h'])
    simp [this, bne]

theorem matchingFrom_cons (method : JSVal) (i : Nat) (l : Layer) (rest : List Layer) :
    matchingFrom method i (l :: rest) =
      if l.tagMatches method then i :: matchingFrom method (i + 1) rest
      else matchingFrom method (i + 1) rest := by
  unfold matchingFrom
  by_cases h : l.tagMatches method = true <;> simp [List.enumFrom, List.filter, h]

/-- The chain when every handler is a normal handler that calls `next()`
synchronously: the matching layers in order, then `done(undefined)`. -/
theorem chain_all_sync (req : Req) (method : JSVal) :
    ∀ (ls : List Layer) (i s : Nat) (b : Bool),
      (∀ l ∈ ls, l.method ≠ some "") →
      (∀ l ∈ ls, l.handle.length ≤ 3 ∧ ∀ e q, l.handle.body e q = [.callNext .undefined]) →
      calls (chain req method ls i s b .undefined) =
          (matchingFrom method i ls).map (fun j => (j, none)) ∧
        doneArgs (chain req method ls i s b .undefined) = [some .undefined] ∧
        (chain req method ls i s b .undefined).getLast? = some (.done (some .undefined)) := by
  have hu1 : ¬(JSVal.undefined.truthy && JSVal.undefined == .str "route") = true := by decide
  have hu2 : ¬(JSVal.undefined.truthy && JSVal.undefined == .str "router") = true := by decide
  intro ls
  induction ls with
  | nil =>
    intro i s b _ _
    by_cases h3 : s + 1 > 100
    · rw [chain_defer _ _ _ _ _ _ _ hu1 hu2 h3, chain_nil _ _ _ _ _ _ hu1 hu2 (by omega)]
      simp [calls, doneArgs, matchingFrom]
    · rw [chain_nil _ _ _ _ _ _ hu1 hu2 h3]
      simp [calls, doneArgs, matchingFrom]
  | cons l rest ih =>
    intro i s b htag hh
    have htag' : ∀ l ∈ rest, l.method ≠ some "" := fun x hx => htag x (List.mem_cons_of_mem _ hx)
    have hh' : ∀ l ∈ rest, l.handle.length ≤ 3 ∧
        ∀ e q, l.handle.body e q = [.callNext .undefined] :=
      fun x hx => hh x (List.mem_cons_of_mem _ hx)
    have key : ∀ (s : Nat) (b : Bool), ¬s + 1 > 100 →
        calls (chain req method (l :: rest) i s b .undefined) =
            (matchingFrom method i (l :: rest)).map (fun j => (j, none)) ∧
          doneArgs (chain req method (l :: rest) i s b .undefined) = [some .undefined] ∧
          (chain req method (l :: rest) i s b .undefined).getLast? =
            some (.done (some .undefined)) := by
      intro s b h3
      rw [chain_cons _ _ _ _ _ _ _ _ hu1 hu2 h3, matchingFrom_cons]
      have hsk := l.skipped_eq_not_tagMatches method (htag l (List.mem_cons_self _ _))
      have hl := hh l (List.mem_cons_self _ _)
      have ihr := ih (i + 1) (s + 1) b htag' hh'
      by_cases hm : l.tagMatches method = true
      · have hs : ¬l.skipped method = true := by simp [hsk, hm]
        have h4 : ¬l.handle.length > 3 := by omega
        rw [if_neg hs, if_neg (by decide), if_neg h4, if_pos hm, hl.2]
        simp only [chainAfter]
        refine ⟨?_, ?_, ?_⟩
        · rw [show ∀ (x : Event) (t : List Event), x :: t = [x] ++ t from fun _ _ => rfl,
            calls_append, ihr.1]
          simp [calls]
        · rw [show ∀ (x : Event) (t : List Event), x :: t = [x] ++ t from fun _ _ => rfl,
            doneArgs_append, ihr.2.1]
          simp [doneArgs]
        · rw [List.getLast?_cons, ihr.2.2]; rfl
      · have hs : l.skipped method = true := by simp [hsk, hm]
        rw [if_pos hs, if_neg hm]
        exact ihr
    by_cases h3 : s + 1 > 100
    · rw [chain_defer _ _ _ _ _ _ _ hu1 hu2 h3]
      have k := key 0 true (by omega)
      refine ⟨?_, ?_, ?_⟩
      · rw [show ∀ (x : Event) (t : List Event), x :: t = [x] ++ t from fun _ _ => rfl,
          calls_append, k.1]
        simp [calls]
      · rw [show ∀ (x : Event) (t : List Event), x :: t = [x] ++ t from fun _ _ => rfl,
          doneArgs_append, k.2.1]
        simp [doneArgs]
      · rw [List.getLast?_cons, k.2.2]; rfl
    · exact key s b h3

theorem drop_eq_cons {α : Type} {xs : List α} {i : Nat} {x : α} {rest : List α}
    (h : xs.drop i = x :: rest) : xs[i]? = some x ∧ xs.drop (i + 1) = rest := by
  constructor
  · have h0 : (xs.drop i)[0]? = some x := by rw [h]; simp
    rw [List.getElem?_drop] at h0
    simpa using h0
  · have : xs.drop (i + 1) = (xs.drop i).drop 1 := by rw [List.drop_drop, Nat.add_comm]
    rw [this, h]; rfl

theorem lastSignalFrom_cases (r : Route) (req : Req) (t : List Event) :
    (∀ cur, lastSignalFrom r req cur t = cur) ∨
      (∀ cur cur1, lastSignalFrom r req cur t = lastSignalFrom r req cur1 t) := by
  induction t with
  | nil => exact Or.inl fun _ => rfl
  | cons x t ih =>
    cases x with
    | invoke i a b =>
      cases hl : r.stack[i]? with
      | none =>
        rcases ih with ih | ih
        · exact Or.inl fun cur => by simp only [lastSignalFrom, hl]; exact ih cur
        · exact Or.inr fun cur cur1 => by simp only [lastSignalFrom, hl]; exact ih _ _
      | some l => exact Or.inr fun cur cur1 => by simp only [lastSignalFrom, hl]
    | done a =>
      rcases ih with ih | ih
      · exact Or.inl fun cur => by simp only [lastSignalFrom]; exact ih cur
      · exact Or.inr fun cur cur1 => by simp only [lastSignalFrom]; exact ih _ _
    | defer a =>
      rcases ih with ih | ih
      · exact Or.inl fun cur => by simp only [lastSignalFrom]; exact ih cur
      · exact Or.inr fun cur cur1 => by simp only [lastSignalFrom]; exact ih _ _

theorem FinalArg.of_undefined {v : JSVal} {arg : Option JSVal} (hv : v.truthy = false)
    (h : FinalArg .undefined arg) : FinalArg v arg := by
  have harg : arg = some .undefined := by
    rcases h.2.2 rfl with h | h <;> exact h
  refine ⟨fun hr => ?_, fun _ ht => ?_, fun _ => Or.inr harg⟩
  · rw [hr] at hv; exact absurd hv (by decide)
  · rw [ht] at hv; exact absurd hv (by decide)

theorem FinalArg.rebaseArg (r : Route) (req : Req) (t : List Event) {v : JSVal}
    {arg : Option JSVal} (hv : v.truthy = false)
    (h : FinalArg (lastSignalFrom r req .undefined t) arg) :
    FinalArg (lastSignalFrom r req v t) arg := by
  rcases lastSignalFrom_cases r req t with hc | hc
  · rw [hc] at h ⊢
    exact h.of_undefined hv
  · rw [hc v .undefined]; exact h

theorem Finishes.route (r : Route) (req : Req) {err : JSVal}
    (h1 : (err.truthy && err == .str "route") = true) : Finishes r req err [.done none] := by
  refine ⟨none, rfl, rfl, fun _ => rfl, fun hne _ => ?_, fun hf => ?_⟩
  · simp only [Bool.and_eq_true, beq_iff_eq] at h1
    exact absurd h1.2 hne
  · simp only [Bool.and_eq_true] at h1
    simp only [lastSignalFrom] at hf
    rw [h1.1] at hf
    exact absurd hf (by decide)

theorem Finishes.self (r : Route) (req : Req) {err : JSVal}
    (h1 : ¬(err.truthy && err == .str "route") = true) :
    Finishes r req err [.done (some err)] := by
  refine ⟨some err, rfl, rfl, fun hr => ?_, fun _ _ => rfl, fun _ => Or.inl rfl⟩
  simp only [lastSignalFrom] at hr
  exact absurd (by rw [hr]; decide) h1

theorem Finishes.defer (r : Route) (req : Req) {err : JSVal} {t : List Event} (v : JSVal)
    (h : Finishes r req err t) : Finishes r req err (.defer v :: t) := by
  obtain ⟨arg, h1, h2, h3⟩ := h
  refine ⟨arg, ?_, ?_, ?_⟩
  · simpa [doneArgs] using h1
  · rw [List.getLast?_cons, h2]; rfl
  · simpa [lastSignalFrom] using h3

theorem Finishes.consInvoke (r : Route) (req : Req) {err : JSVal} {t : List Event} {i : Nat}
    {l : Layer} (a : Option JSVal) (b : Bool) (hl : r.stack[i]? = some l)
    (h : Finishes r req (signalValue (l.handle.body a { req with route := b })) t) :
    Finishes r req err (.invoke i a b :: t) := by
  obtain ⟨arg, h1, h2, h3⟩ := h
  refine ⟨arg, ?_, ?_, ?_⟩
  · simpa [doneArgs] using h1
  · rw [List.getLast?_cons, h2]; rfl
  · simpa [lastSignalFrom, hl] using h3

theorem Finishes.rebaseTrace (r : Route) (req : Req) {err : JSVal} {t : List Event}
    (he : err.truthy = false) (h : Finishes r req .undefined t) : Finishes r req err t := by
  obtain ⟨arg, h1, h2, h3⟩ := h
  exact ⟨arg, h1, h2, FinalArg.rebaseArg r req t he h3⟩

/-- When every handler signals exactly once, a chain ends with its only call
of `done`, whose argument matches the last signal. -/
theorem chain_final (r : Route) (req : Req) (method : JSVal) :
    ∀ (ls : List Layer) (i s : Nat) (b : Bool) (err : JSVal), r.stack.drop i = ls →
      (∀ l ∈ ls, ∀ a q, (l.handle.body a q).length = 1) →
      Finishes r req err (chain req method ls i s b err) := by
  intro ls
  induction ls with
  | nil =>
    intro i s b err _ _
    by_cases h1 : (err.truthy && err == .str "route") = true
    · rw [chain_route _ _ _ _ _ _ _ h1]; exact Finishes.route r req h1
    by_cases h2 : (err.truthy && err == .str "router") = true
    · rw [chain_router _ _ _ _ _ _ _ h1 h2]; exact Finishes.self r req h1
    by_cases h3 : s + 1 > 100
    · rw [chain_defer _ _ _ _ _ _ _ h1 h2 h3, chain_nil _ _ _ _ _ _ h1 h2 (by omega)]
      exact (Finishes.self r req h1).defer r req err
    · rw [chain_nil _ _ _ _ _ _ h1 h2 h3]; exact Finishes.self r req h1
  | cons l rest ih =>
    intro i s b err hd hone
    by_cases h1 : (err.truthy && err == .str "route") = true
    · rw [chain_route _ _ _ _ _ _ _ h1]; exact Finishes.route r req h1
    by_cases h2 : (err.truthy && err == .str "router") = true
    · rw [chain_router _ _ _ _ _ _ _ h1 h2]; exact Finishes.self r req h1
    obtain ⟨hl, hd1⟩ := drop_eq_cons hd
    have hone' : ∀ l ∈ rest, ∀ a q, (l.handle.body a q).length = 1 :=
      fun x hx => hone x (List.mem_cons_of_mem _ hx)
    have tailCase : ∀ s b v, Finishes r req v (chain req method rest (i + 1) s b v) :=
      fun s b v => ih (i + 1) s b v hd1 hone'
    have headCase : ∀ (a0 : Option JSVal) (s : Nat) (b : Bool),
        Finishes r req err (.invoke i a0 b ::
          chainAfter (chain req method rest (i + 1)) s b
            (l.handle.body a0 { req with route := b })) := by
      intro a0 s b
      apply Finishes.consInvoke r req a0 b hl
      have h1len := hone l (List.mem_cons_self _ _) a0 { req with route := b }
      match hb : l.handle.body a0 { req with route := b }, h1len with
      | [.callNext v], _ => exact tailCase _ _ _
      | [.throw v], _ => exact tailCase _ _ _
      | [.callLater v], _ => exact tailCase _ _ _
    have key : ∀ s b, ¬s + 1 > 100 →
        Finishes r req err (chain req method (l :: rest) i s b err) := by
      intro s b h3
      rw [chain_cons _ _ _ _ _ _ _ _ h1 h2 h3]
      by_cases hs : l.skipped method = true
      · rw [if_pos hs]; exact tailCase _ _ _
      rw [if_neg hs]
      by_cases he : err.truthy = true
      · rw [if_pos he]
        by_cases h4 : l.handle.length ≠ 4
        · rw [if_pos h4]; exact tailCase _ _ _
        · rw [if_neg h4]; exact headCase _ _ _
      · rw [if_neg he]
        by_cases h4 : l.handle.length > 3
        · rw [if_pos h4]
          exact (tailCase _ _ _).rebaseTrace r req (by simpa using he)
        · rw [if_neg h4]; exact headCase _ _ _
    by_cases h3 : s + 1 > 100
    · rw [chain_defer _ _ _ _ _ _ _ h1 h2 h3]
      exact (key 0 true (by omega)).defer r req err
    · exact key s b h3

/-- C5, as stated, fails. The only handler of `exTwiceRoute` calls its
continuation exactly once and then throws, and the dispatch calls `done`
twice, first with `undefined` and then with the thrown value. The only handler
of `exFalsyRoute` calls its continuation exactly once, with the falsy value
`0`: the layers are exhausted with no error pending, and `done` is called with
the argument `0`. -/
theorem C5_done_called_twice :
    (callsOnce (exCallThenThrow.body none ⟨.str "GET", false⟩) = true ∧
      (exTwiceRoute.run ⟨.str "GET", false⟩ 1).queue = [] ∧
      doneArgs (exTwiceRoute.run ⟨.str "GET", false⟩ 1).trace =
        [some .undefined, some (.str "boom")]) ∧
    (callsOnce (exPassZero.body none ⟨.str "GET", false⟩) = true ∧
      (exFalsyRoute.run ⟨.str "GET", false⟩ 1).queue = [] ∧
      (exFalsyRoute.run ⟨.str "GET", false⟩ 1).trace =
        [.invoke 0 none false, .done (some (.num 0))]) := by
  decide

/-- C5, amended: for every route (empty or not) and request, when every
handler signals exactly once per call (it calls its continuation once, at
once or later, with any value and does not throw afterwards, or it throws
without having called it), a dispatch calls `done` exactly once, as its last
event. The call has no argument when the stack is empty or the last signalled
value is the string `route`; its argument is the last signalled value when
that is truthy (a pending error or the string `router`); and otherwise, with
no error pending, its argument is the last signalled falsy value or
`undefined` (`undefined` when no handler was called). -/
theorem C5_done_called_exactly_once (r : Route) (req : Req) (turns : Nat)
    (hone : ∀ l ∈ r.stack, ∀ a q, (l.handle.body a q).length = 1)
    (ht : r.stack.length ≤ turns) :
    (r.run req turns).queue = [] ∧
      ∃ arg, doneArgs (r.run req turns).trace = [arg] ∧
        (r.run req turns).trace.getLast? = some (.done arg) ∧
        (r.stack = [] → arg = none) ∧
        (r.stack ≠ [] →
          (r.lastSignal req (r.run req turns).trace = .str "route" → arg = none) ∧
          (r.lastSignal req (r.run req turns).trace ≠ .str "route" →
            (r.lastSignal req (r.run req turns).trace).truthy = true →
            arg = some (r.lastSignal req (r.run req turns).trace)) ∧
          ((r.lastSignal req (r.run req turns).trace).truthy = false →
            arg = some (r.lastSignal req (r.run req turns).trace) ∨
              arg = some .undefined)) := by
  have hc : r.Contract := fun l hl e q => Nat.le_of_eq (hone l hl e q)
  obtain ⟨h1, _, h3⟩ := Route.run_chain r req hc turns ht
  refine ⟨h1, ?_⟩
  rw [h3]
  unfold Route.chainTrace
  by_cases h0 : r.stack.length = 0
  · rw [if_pos h0]
    exact ⟨none, rfl, rfl, fun _ => rfl, fun hne => absurd (List.length_eq_zero.1 h0) hne⟩
  · rw [if_neg h0]
    obtain ⟨arg, a1, a2, a3⟩ := chain_final r req (r.getMethod req) r.stack 0 0 req.route
      .undefined rfl hone
    exact ⟨arg, a1, a2, fun he => absurd (by rw [he]; rfl) h0, fun _ => a3⟩

theorem C5_done_called_exactly_once_witness :
    (exZeroRoute.run ⟨.str "GET", false⟩ 3).queue = [] ∧
      ∃ arg, doneArgs (exZeroRoute.run ⟨.str "GET", false⟩ 3).trace = [arg] ∧
        (exZeroRoute.run ⟨.str "GET", false⟩ 3).trace.getLast? = some (.done arg) ∧
        (exZeroRoute.stack = [] → arg = none) ∧
        (exZeroRoute.stack ≠ [] →
          (exZeroRoute.lastSignal ⟨.str "GET", false⟩
              (exZeroRoute.run ⟨.str "GET", false⟩ 3).trace = .str "route" → arg = none) ∧
          (exZeroRoute.lastSignal ⟨.str "GET", false⟩
              (exZeroRoute.run ⟨.str "GET", false⟩ 3).trace ≠ .str "route" →
            (exZeroRoute.lastSignal ⟨.str "GET", false⟩
              (exZeroRoute.run ⟨.str "GET", false⟩ 3).trace).truthy = true →
            arg = some (exZeroRoute.lastSignal ⟨.str "GET", false⟩
              (exZeroRoute.run ⟨.str "GET", false⟩ 3).trace)) ∧
          ((exZeroRoute.lastSignal ⟨.str "GET", false⟩
              (exZeroRoute.run ⟨.str "GET", false⟩ 3).trace).truthy = false →
            arg = some (exZeroRoute.lastSignal ⟨.str "GET", false⟩
              (exZeroRoute.run ⟨.str "GET", false⟩ 3).trace) ∨
              arg = some .undefined)) :=
  C5_done_called_exactly_once exZeroRoute ⟨.str "GET", false⟩ 3
    (by simp [exZeroRoute, Layer.new, exPass, exPassZero, exRecover]) (by decide)

theorem setFlag_idem (keys : List String) (key : String) :
    setFlag (setFlag keys key) key = setFlag keys key := by
  unfold setFlag
  by_cases h1 : (key == "__proto__") = true
  · simp only [h1, if_true]
  · by_cases h2 : keys.contains key = true
    · simp only [h1, h2, if_true, if_false, Bool.false_eq_true]
    · simp only [h1, h2, if_false, Bool.false_eq_true]
      have : (keys ++ [key]).contains key = true := by simp
      rw [if_pos this]

theorem Route.methodLoop_fns (m : String) (fns : List Handler) :
    ∀ (r : Route) (tail : List Item),
      Route.methodLoop m r (fns.map Item.fn ++ tail) =
        Route.methodLoop m
          { r with stack := r.stack ++ fns.map (Layer.bound (some m)),
                   methods := if fns.isEmpty then r.methods else setFlag r.methods m }
          tail := by
  induction fns with
  | nil => intro r tail; simp
  | cons h rest ih =>
    intro r tail
    rw [List.map_cons, List.cons_append, Route.methodLoop, ih]
    congr 1
    cases rest with
    | nil => simp [Layer.bound]
    | cons h2 rest2 => simp [setFlag_idem, Layer.bound]

theorem Route.allLoop_fns (fns : List Handler) :
    ∀ (r : Route) (tail : List Item),
      Route.allLoop r (fns.map Item.fn ++ tail) =
        Route.allLoop
          { r with stack := r.stack ++ fns.map (Layer.bound none),
                   methods := if fns.isEmpty then r.methods else setFlag r.methods "_all" }
          tail := by
  induction fns with
  | nil => intro r tail; simp
  | cons h rest ih =>
    intro r tail
    rw [List.map_cons, List.cons_append, Route.allLoop, ih]
    congr 1
    cases rest with
    | nil => simp [Layer.bound]
    | cons h2 rest2 => simp [setFlag_idem, Layer.bound]

theorem Route.methodLoop_mapFn (f : Handler → Handler) (m : String) (items : List Item) :
    ∀ r : Route, Route.methodLoop m (r.mapFn f) (items.map (Item.mapFn f)) =
      ((Route.methodLoop m r items).1.mapFn f, (Route.methodLoop m r items).2) := by
  induction items with
  | nil => intro r; rfl
  | cons x rest ih =>
    intro r
    cases x with
    | val v => rfl
    | fn h =>
      simp only [List.map_cons, Item.mapFn, Route.methodLoop]
      rw [← ih]
      congr 1
      simp [Route.mapFn, Layer.new]

theorem Route.allLoop_mapFn (f : Handler → Handler) (items : List Item) :
    ∀ r : Route, Route.allLoop (r.mapFn f) (items.map (Item.mapFn f)) =
      ((Route.allLoop r items).1.mapFn f, (Route.allLoop r items).2) := by
  induction items with
  | nil => intro r; rfl
  | cons x rest ih =>
    intro r
    cases x with
    | val v => rfl
    | fn h =>
      simp only [List.map_cons, Item.mapFn, Route.allLoop]
      rw [← ih]
      congr 1
      simp [Route.mapFn, Layer.new]

/-- C6: for every route and every registration operation (`all`, or the
operation of a method `m`), when the full flattening of the arguments is the
functions `fns` followed by a non-function `v` (and anything after it), the
call throws an error whose message names the operation (`Route.all()` or
`Route.m()`) and the `Object.prototype.toString` tag of `v`, and the layer
sequence afterwards is the previous one followed by one new layer for each
function of `fns`, in order, and nothing else. No handler is executed: the
outcome is the same, up to the replacement, when the functions are replaced by
any others. -/
theorem C6_registration_rejects_non_function (r : Route) (m : String) (args : List Arg)
    (fns : List Handler) (v : JSVal) (rest : List Item)
    (hflat : Arg.flatList args = fns.map Item.fn ++ .val v :: rest) :
    (r.all args).2 = some (RegError.mk "CallbackTypeError"
        ("Route.all() requires a callback function but got a " ++ v.typeTag)) ∧
      (r.all args).1.stack = r.stack ++ fns.map (Layer.bound none) ∧
      (Route.method m r args).2 = some (RegError.mk "Error"
        ("Route." ++ m ++ "() requires a callback function but got a " ++ v.typeTag)) ∧
      (Route.method m r args).1.stack = r.stack ++ fns.map (Layer.bound (some m)) ∧
      (∀ (f : Handler → Handler) (args2 : List Arg),
        Arg.flatList args2 = (Arg.flatList args).map (Item.mapFn f) →
        (r.mapFn f).all args2 = ((r.all args).1.mapFn f, (r.all args).2) ∧
        Route.method m (r.mapFn f) args2 =
          ((Route.method m r args).1.mapFn f, (Route.method m r args).2)) := by
  refine ⟨?_, ?_, ?_, ?_, ?_⟩
  · unfold Route.all; rw [hflat, Route.allLoop_fns]; rfl
  · unfold Route.all; rw [hflat, Route.allLoop_fns]; rfl
  · unfold Route.method; rw [hflat, Route.methodLoop_fns]; rfl
  · unfold Route.method; rw [hflat, Route.methodLoop_fns]; rfl
  · intro f args2 h2
    unfold Route.all Route.method
    rw [h2]
    exact ⟨Route.allLoop_mapFn f _ r, Route.methodLoop_mapFn f m _ r⟩

theorem C6_registration_rejects_non_function_witness :
    ((Route.new "/x").all [.arr [.fn exPass, .arr [.fn exRecover]], .val .null, .fn exPass]).2 =
        some (RegError.mk "CallbackTypeError"
          ("Route.all() requires a callback function but got a " ++ JSVal.null.typeTag)) ∧
      ((Route.new "/x").all
          [.arr [.fn exPass, .arr [.fn exRecover]], .val .null, .fn exPass]).1.stack =
        (Route.new "/x").stack ++ [exPass, exRecover].map (Layer.bound none) ∧
      (Route.method "get" (Route.new "/x")
          [.arr [.fn exPass, .arr [.fn exRecover]], .val .null, .fn exPass]).2 =
        some (RegError.mk "Error"
          ("Route." ++ "get" ++ "() requires a callback function but got a "
            ++ JSVal.null.typeTag)) ∧
      (Route.method "get" (Route.new "/x")
          [.arr [.fn exPass, .arr [.fn exRecover]], .val .null, .fn exPass]).1.stack =
        (Route.new "/x").stack ++ [exPass, exRecover].map (Layer.bound (some "get")) ∧
      (∀ (f : Handler → Handler) (args2 : List Arg),
        Arg.flatList args2 =
          (Arg.flatList [.arr [.fn exPass, .arr [.fn exRecover]], .val .null, .fn exPass]).map
            (Item.mapFn f) →
        ((Route.new "/x").mapFn f).all args2 =
          (((Route.new "/x").all
              [.arr [.fn exPass, .arr [.fn exRecover]], .val .null, .fn exPass]).1.mapFn f,
            ((Route.new "/x").all
              [.arr [.fn exPass, .arr [.fn exRecover]], .val .null, .fn exPass]).2) ∧
        Route.method "get" ((Route.new "/x").mapFn f) args2 =
          ((Route.method "get" (Route.new "/x")
              [.arr [.fn exPass, .arr [.fn exRecover]], .val .null, .fn exPass]).1.mapFn f,
            (Route.method "get" (Route.new "/x")
              [.arr [.fn exPass, .arr [.fn exRecover]], .val .null, .fn exPass]).2)) :=
  C6_registration_rejects_non_function (Route.new "/x") "get"
    [.arr [.fn exPass, .arr [.fn exRecover]], .val .null, .fn exPass]
    [exPass, exRecover] .null [.fn exPass] rfl

theorem mem_setFlag {keys : List String} {key k : String} (h : key ≠ "__proto__") :
    k ∈ setFlag keys key ↔ k ∈ keys ∨ k = key := by
  unfold setFlag
  have h1 : ¬(key == "__proto__") = true := by simpa using h
  rw [if_neg h1]
  by_cases h2 : keys.contains key = true
  · rw [if_pos h2]
    have : key ∈ keys := by simpa using h2
    constructor
    · exact Or.inl
    · rintro (h | h)
      · exact h
      · exact h ▸ this
  · rw [if_neg h2]; simp

theorem isMethodName_ne_proto {m : String} (h : isMethodName m = true) : m ≠ "__proto__" := by
  intro hm; subst hm; revert h; decide

theorem isMethodName_ne_all {m : String} (h : isMethodName m = true) : m ≠ "_all" := by
  intro hm; subst hm; revert h; decide

theorem isMethodName_ne_empty {m : String} (h : isMethodName m = true) : m ≠ "" := by
  intro hm; subst hm; revert h; decide

theorem Route.FlagsMatch.push {r : Route} (h : r.FlagsMatch) (l : Layer)
    (hk : l.flagKey ≠ "__proto__") :
    Route.FlagsMatch { r with methods := setFlag r.methods l.flagKey, stack := r.stack ++ [l] } := by
  intro key
  simp only [mem_setFlag hk, List.mem_append, List.mem_singleton]
  rw [h key]
  constructor
  · rintro (⟨x, hx, hxk⟩ | hkey)
    · exact ⟨x, Or.inl hx, hxk⟩
    · exact ⟨l, Or.inr rfl, hkey.symm⟩
  · rintro ⟨x, hx | hx, hxk⟩
    · exact Or.inl ⟨x, hx, hxk⟩
    · exact Or.inr (by rw [← hxk, hx])

theorem Route.allLoop_flagsMatch (items : List Item) :
    ∀ r : Route, r.FlagsMatch → (r.allLoop items).1.FlagsMatch := by
  induction items with
  | nil => intro r h; exact h
  | cons x rest ih =>
    intro r h
    cases x with
    | val v => exact h
    | fn f =>
      exact ih _ (h.push { Layer.new "/" none f with method := none }
        (by simp [Layer.flagKey]))

theorem Route.methodLoop_flagsMatch (m : String) (hm : isMethodName m = true)
    (items : List Item) :
    ∀ r : Route, r.FlagsMatch → (Route.methodLoop m r items).1.FlagsMatch := by
  induction items with
  | nil => intro r h; exact h
  | cons x rest ih =>
    intro r h
    cases x with
    | val v => exact h
    | fn f =>
      exact ih _ (h.push { Layer.new "/" none f with method := some m }
        (isMethodName_ne_proto hm))

theorem Route.apply_flagsMatch (r : Route) (c : RegCall) (hc : c.valid) (h : r.FlagsMatch) :
    (r.apply c).FlagsMatch := by
  cases c with
  | all args => exact Route.allLoop_flagsMatch _ r h
  | method m args => exact Route.methodLoop_flagsMatch m hc _ r h

/-- Every route built from a new route by registration calls, failed ones
included, keeps its method flags in step with its layers. -/
theorem Route.applyAll_flagsMatch (calls : List RegCall) :
    ∀ r : Route, (∀ c ∈ calls, c.valid) → r.FlagsMatch → (r.applyAll calls).FlagsMatch := by
  induction calls with
  | nil => intro r _ h; exact h
  | cons c rest ih =>
    intro r hv h
    exact ih _ (fun c hc => hv c (List.mem_cons_of_mem _ hc))
      (Route.apply_flagsMatch r c (hv c (List.mem_cons_self _ _)) h)

theorem Route.new_flagsMatch (path : String) : (Route.new path).FlagsMatch := by
  intro key; simp [Route.new]

theorem mem_setFlag_of_mem {keys : List String} {key : String} (k : String)
    (h : key ∈ keys) : key ∈ setFlag keys k := by
  unfold setFlag
  split_ifs
  · exact h
  · exact h
  · exact List.mem_append_left _ h

theorem Route.allLoop_methods_mono (key : String) (items : List Item) :
    ∀ r : Route, key ∈ r.methods → key ∈ (r.allLoop items).1.methods := by
  induction items with
  | nil => intro r h; exact h
  | cons x rest ih =>
    intro r h
    cases x with
    | val v => exact h
    | fn f => exact ih _ (mem_setFlag_of_mem "_all" h)

theorem Route.methodLoop_methods_mono (key m : String) (items : List Item) :
    ∀ r : Route, key ∈ r.methods → key ∈ (Route.methodLoop m r items).1.methods := by
  induction items with
  | nil => intro r h; exact h
  | cons x rest ih =>
    intro r h
    cases x with
    | val v => exact h
    | fn f => exact ih _ (mem_setFlag_of_mem m h)

/-- Registration never removes a key of `this.methods`. -/
theorem Route.apply_methods_mono (r : Route) (c : RegCall) (key : String)
    (h : key ∈ r.methods) : key ∈ (r.apply c).methods := by
  cases c with
  | all args => exact Route.allLoop_methods_mono key _ r h
  | method m args => exact Route.methodLoop_methods_mono key m _ r h

theorem Route.applyAll_methods_mono (calls : List RegCall) (key : String) :
    ∀ r : Route, key ∈ r.methods → key ∈ (r.applyAll calls).methods := by
  induction calls with
  | nil => intro r h; exact h
  | cons c rest ih => intro r h; exact ih _ (Route.apply_methods_mono r c key h)

/-- C8: for every route on which `all` has been called with arguments whose
flattening starts with a function, whatever registration calls follow, and for
every method value `m` (any string in any letter case, or any other value),
`_handles_method(m)` returns true. -/
theorem C8_all_handles_every_method (r : Route) (args : List Arg) (h : Handler)
    (rest : List Item) (later : List RegCall) (m : JSVal)
    (hflat : Arg.flatList args = .fn h :: rest) :
    ((r.all args).1.applyAll later)._handles_method m = true := by
  have h1 : "_all" ∈ (r.all args).1.methods := by
    unfold Route.all
    rw [hflat]
    exact Route.allLoop_methods_mono "_all" rest _
      ((mem_setFlag (by decide)).2 (Or.inr rfl))
  have h2 := Route.applyAll_methods_mono later "_all" _ h1
  have hf : ((r.all args).1.applyAll later).flag "_all" = true := by
    unfold Route.flag
    have : ((r.all args).1.applyAll later).methods.contains "_all" = true := by simpa using h2
    rw [this]; rfl
  unfold Route._handles_method
  rw [if_pos hf]

theorem C8_all_handles_every_method_witness :
    Arg.flatList exNested = .fn exPass :: [.fn exRecover, .fn exPass] ∧
      (((Route.new "/x").all exNested).1.applyAll [.method "post" [.val .null]])._handles_method
        (.str "PrOpFiNd") = true :=
  ⟨rfl, C8_all_handles_every_method (Route.new "/x") exNested exPass
    [.fn exRecover, .fn exPass] [.method "post" [.val .null]] (.str "PrOpFiNd") rfl⟩

theorem Route.flag_of_flagsMatch {r : Route} (h : r.FlagsMatch) (key : String)
    (hk : objectPrototypeKeys.contains key = false) :
    r.flag key = true ↔ ∃ l ∈ r.stack, l.flagKey = key := by
  unfold Route.flag
  rw [hk, Bool.or_false, ← h key]
  simp

/-- C9: for every route built by registration calls whose layers are all
tagged `get`, with at least one layer, `_handles_method` returns true for
every string that lower-cases to `head`, and `_options()` contains both `GET`
and `HEAD`. -/
theorem C9_get_only_route_handles_head (r : Route) (path : String) (calls : List RegCall)
    (s : String) (hr : r = (Route.new path).applyAll calls) (hv : ∀ c ∈ calls, c.valid)
    (hne : r.stack ≠ []) (htags : ∀ l ∈ r.stack, l.method = some "get")
    (hs : toLowerCase s = "head") :
    r._handles_method (.str s) = true ∧ "GET" ∈ r._options ∧ "HEAD" ∈ r._options := by
  have hfm : r.FlagsMatch := by
    rw [hr]; exact Route.applyAll_flagsMatch calls _ hv (Route.new_flagsMatch path)
  have hkey : ∀ l ∈ r.stack, l.flagKey = "get" := by
    intro l hl; unfold Layer.flagKey; rw [htags l hl]
  obtain ⟨l0, hl0⟩ := List.exists_mem_of_ne_nil _ hne
  have hget : r.flag "get" = true :=
    (Route.flag_of_flagsMatch hfm "get" (by decide)).2 ⟨l0, hl0, hkey l0 hl0⟩
  have hhead : r.flag "head" = false := by
    cases hf : r.flag "head" with
    | false => rfl
    | true =>
      obtain ⟨l, hl, hk⟩ := (Route.flag_of_flagsMatch hfm "head" (by decide)).1 hf
      rw [hkey l hl] at hk
      exact absurd hk (by decide)
  have hall : r.flag "_all" = false := by
    cases hf : r.flag "_all" with
    | false => rfl
    | true =>
      obtain ⟨l, hl, hk⟩ := (Route.flag_of_flagsMatch hfm "_all" (by decide)).1 hf
      rw [hkey l hl] at hk
      exact absurd hk (by decide)
  have hmem : "get" ∈ r.methods := (hfm "get").2 ⟨l0, hl0, hkey l0 hl0⟩
  refine ⟨?_, ?_, ?_⟩
  · unfold Route._handles_method
    simp only [hall, hs, hhead, Bool.false_eq_true, if_false, beq_self_eq_true, Bool.not_false,
      Bool.and_self, if_true, JSVal.toKey, hget]
  · unfold Route._options
    simp only [hget, hhead, Bool.not_false, Bool.and_self, if_true, List.map_append,
      List.mem_append, List.mem_map]
    exact Or.inl ⟨"get", hmem, by decide⟩
  · unfold Route._options
    simp only [hget, hhead, Bool.not_false, Bool.and_self, if_true, List.map_append,
      List.mem_append, List.mem_map]
    exact Or.inr ⟨"head", by simp, by decide⟩

theorem C9_get_only_route_handles_head_witness :
    exGetRoute._handles_method (.str "HeAd") = true ∧ "GET" ∈ exGetRoute._options ∧
      "HEAD" ∈ exGetRoute._options :=
  C9_get_only_route_handles_head exGetRoute "/x"
    [.method "get" [.fn exPass, .val .null], .method "get" [.fn exPass]] "HeAd" rfl
    (by
      intro c hc
      simp only [List.mem_cons, List.mem_singleton, List.not_mem_nil, or_false] at hc
      rcases hc with rfl | rfl <;> exact (by decide : isMethodName "get" = true))
    (by simp [exGetRoute, Route.applyAll, Route.apply, Route.method, Route.methodLoop,
      Arg.flatList, Arg.flat, Route.new])
    (by simp [exGetRoute, Route.applyAll, Route.apply, Route.method, Route.methodLoop,
      Arg.flatList, Arg.flat, Route.new, Layer.new])
    (by decide)

theorem mem_invokedLayers {t : List Event} {i : Nat} (h : i ∈ invokedLayers t) :
    ∃ a b, Event.invoke i a b ∈ t := by
  unfold invokedLayers at h
  rw [List.mem_filterMap] at h
  obtain ⟨e, he, hi⟩ := h
  cases e with
  | invoke j a b =>
    simp only [Option.some.injEq] at hi
    exact ⟨a, b, hi ▸ he⟩
  | done a => simp at hi
  | defer a => simp at hi

theorem invokedLayers_eq_calls (t : List Event) : invokedLayers t = (calls t).map Prod.fst := by
  induction t with
  | nil => rfl
  | cons e t ih =>
    cases e with
    | invoke j a b =>
      simp only [invokedLayers, calls, List.filterMap_cons, List.map_cons] at ih ⊢
      rw [ih]
    | done a =>
      simp only [invokedLayers, calls, List.filterMap_cons] at ih ⊢
      exact ih
    | defer a =>
      simp only [invokedLayers, calls, List.filterMap_cons] at ih ⊢
      exact ih

/-- When every handler is a normal handler that calls `next()` synchronously,
the handlers called by a dispatch are those of the matching layers, in
order. -/
theorem Route.run_invoked_sync (r : Route) (req : Req) (turns : Nat)
    (htag : ∀ l ∈ r.stack, l.method ≠ some "")
    (hh : ∀ l ∈ r.stack, l.handle.length ≤ 3 ∧
      ∀ e q, l.handle.body e q = [.callNext .undefined])
    (ht : r.stack.length ≤ turns) :
    invokedLayers (r.run req turns).trace = matchingFrom (r.getMethod req) 0 r.stack := by
  have hc : r.Contract := fun l hl e q => by rw [(hh l hl).2]; exact le_refl _
  rw [invokedLayers_eq_calls, (Route.run_chain r req hc turns ht).2.2]
  unfold Route.chainTrace
  by_cases h0 : r.stack.length = 0
  · rw [if_pos h0, List.length_eq_zero.1 h0]; rfl
  · rw [if_neg h0, (chain_all_sync req (r.getMethod req) r.stack 0 0 req.route htag hh).1]
    simp [Function.comp_def]

theorem matchingFrom_all (method : JSVal) :
    ∀ (ls : List Layer) (i : Nat), (∀ l ∈ ls, l.tagMatches method = true) →
      matchingFrom method i ls = List.range' i ls.length := by
  intro ls
  induction ls with
  | nil => intro i _; rfl
  | cons l rest ih =>
    intro i h
    rw [matchingFrom_cons, if_pos (h l (List.mem_cons_self _ _)),
      ih (i + 1) (fun x hx => h x (List.mem_cons_of_mem _ hx))]
    simp [List.range'_succ]

/-- C10: let a route be built by registration calls, with every layer tagged
`get` or `head`, and let the request method lower-case to `head`. When some
layer is tagged `head`, whatever the handlers do, every handler a dispatch
calls belongs to a `head` layer (never to a `get` layer), and the calls are in
registration order; with normal handlers that call `next()` synchronously the
layers called are exactly the `head` layers. When no layer is tagged `head`,
the same request with such handlers calls the handlers of the `get` layers,
which are all the layers. -/
theorem C10_head_request_filtering (r : Route) (path : String) (calls : List RegCall)
    (req : Req) (s : String) (turns : Nat)
    (hr : r = (Route.new path).applyAll calls) (hv : ∀ c ∈ calls, c.valid)
    (htags : ∀ l ∈ r.stack, l.method = some "get" ∨ l.method = some "head")
    (hreq : req.method = .str s) (hs : toLowerCase s = "head") :
    ((∃ l ∈ r.stack, l.method = some "head") →
      (∀ i ∈ invokedLayers (r.run req turns).trace,
        ∃ l, r.stack[i]? = some l ∧ l.method = some "head") ∧
      (invokedLayers (r.run req turns).trace).Pairwise (fun a b => a < b) ∧
      ((∀ l ∈ r.stack, l.handle.length ≤ 3 ∧
          ∀ e q, l.handle.body e q = [.callNext .undefined]) →
        r.stack.length ≤ turns →
        invokedLayers (r.run req turns).trace = matchingFrom (.str "head") 0 r.stack)) ∧
    ((∀ l ∈ r.stack, l.method ≠ some "head") →
      (∀ l ∈ r.stack, l.handle.length ≤ 3 ∧
          ∀ e q, l.handle.body e q = [.callNext .undefined]) →
        r.stack.length ≤ turns →
        invokedLayers (r.run req turns).trace = matchingFrom (.str "get") 0 r.stack ∧
        matchingFrom (.str "get") 0 r.stack = List.range r.stack.length) := by
  have hfm : r.FlagsMatch := by
    rw [hr]; exact Route.applyAll_flagsMatch calls _ hv (Route.new_flagsMatch path)
  have hflag := Route.flag_of_flagsMatch hfm "head" (by decide)
  have htag0 : ∀ l ∈ r.stack, l.method ≠ some "" := by
    intro l hl h0
    rcases htags l hl with h | h <;> rw [h] at h0 <;> exact absurd h0 (by decide)
  have hkey : ∀ l ∈ r.stack, (l.flagKey = "head" ↔ l.method = some "head") := by
    intro l hl
    unfold Layer.flagKey
    rcases htags l hl with h | h <;> rw [h] <;> simp
  have hmeth : r.getMethod req = if r.flag "head" = true then .str "head" else .str "get" := by
    unfold Route.getMethod
    rw [hreq]
    by_cases hf : r.flag "head" = true <;> simp [hs, hf]
  constructor
  · rintro ⟨l0, hl0, hm0⟩
    have hf : r.flag "head" = true := hflag.2 ⟨l0, hl0, (hkey l0 hl0).2 hm0⟩
    rw [if_pos hf] at hmeth
    have hgood := Route.run_good r req turns
    refine ⟨?_, hgood.ordered, ?_⟩
    · intro i hi
      obtain ⟨a, b, hmem⟩ := mem_invokedLayers hi
      obtain ⟨l, hl, hsk, _⟩ := hgood.legit _ hmem
      refine ⟨l, hl, ?_⟩
      have hlm : l ∈ r.stack := List.getElem?_mem hl
      rcases htags l hlm with h | h
      · rw [hmeth] at hsk
        unfold Layer.skipped at hsk
        rw [h] at hsk
        exact absurd hsk (by decide)
      · exact h
    · intro hh ht
      rw [Route.run_invoked_sync r req turns htag0 hh ht, hmeth]
  · intro hno hh ht
    have hf : ¬r.flag "head" = true := by
      intro hf
      obtain ⟨l, hl, hk⟩ := hflag.1 hf
      exact hno l hl ((hkey l hl).1 hk)
    rw [if_neg hf] at hmeth
    refine ⟨by rw [Route.run_invoked_sync r req turns htag0 hh ht, hmeth], ?_⟩
    rw [matchingFrom_all, List.range_eq_range']
    intro l hl
    unfold Layer.tagMatches
    rcases htags l hl with h | h
    · rw [h]; rfl
    · exact absurd h (hno l hl)

theorem C10_head_request_filtering_witness :
    (∃ l ∈ exHeadRoute.stack, l.method = some "head") ∧
      invokedLayers (exHeadRoute.run ⟨.str "HEAD", false⟩ 3).trace =
        matchingFrom (.str "head") 0 exHeadRoute.stack :=
  have hex : ∃ l ∈ exHeadRoute.stack, l.method = some "head" :=
    ⟨Layer.bound (some "head") exPass, by
      simp [exHeadRoute, Route.applyAll, Route.apply, Route.method, Route.methodLoop,
        Arg.flatList, Arg.flat, Route.new, Layer.new, Layer.bound], rfl⟩
  ⟨hex, ((C10_head_request_filtering exHeadRoute "/x"
    [.method "get" [.fn exPass], .method "head" [.fn exPass], .method "get" [.fn exPass]]
    ⟨.str "HEAD", false⟩ "HEAD" 3 rfl
    (by
      intro c hc
      simp only [List.mem_cons, List.mem_singleton, List.not_mem_nil, or_false] at hc
      rcases hc with rfl | rfl | rfl
      · exact (by decide : isMethodName "get" = true)
      · exact (by decide : isMethodName "head" = true)
      · exact (by decide : isMethodName "get" = true))
    (by simp [exHeadRoute, Route.applyAll, Route.apply, Route.method, Route.methodLoop,
      Arg.flatList, Arg.flat, Route.new, Layer.new])
    rfl (by decide)).1 hex).2.2
    (by simp [exHeadRoute, Route.applyAll, Route.apply, Route.method, Route.methodLoop,
      Arg.flatList, Arg.flat, Route.new, Layer.new, exPass])
    (by decide)⟩

/-- C11, at the failing input: after `all(fn)` and `get(fn)`, `_options()`
returns `_ALL` next to `GET` and `HEAD`; `_ALL` is the upper-cased key `_all`
of the any-method flag, which is not a method name. -/
theorem C11_options_lists_all_key :
    exAllRoute._options = ["_ALL", "GET", "HEAD"] ∧ exAllRoute.methods = ["_all", "get"] ∧
      isMethodName "_all" = false ∧ toLowerCase "_ALL" = "_all" := by
  decide

theorem Route.allLoop_tagsValid (items : List Item) :
    ∀ r : Route, r.TagsValid → (r.allLoop items).1.TagsValid := by
  induction items with
  | nil => intro r h; exact h
  | cons x rest ih =>
    intro r h
    cases x with
    | val v => exact h
    | fn f =>
      apply ih
      intro l hl m hm
      simp only [List.mem_append, List.mem_singleton] at hl
      rcases hl with hl | hl
      · exact h l hl m hm
      · subst hl; simp at hm

theorem Route.methodLoop_tagsValid (m : String) (hm : isMethodName m = true)
    (items : List Item) :
    ∀ r : Route, r.TagsValid → (Route.methodLoop m r items).1.TagsValid := by
  induction items with
  | nil => intro r h; exact h
  | cons x rest ih =>
    intro r h
    cases x with
    | val v => exact h
    | fn f =>
      apply ih
      intro l hl m1 hm1
      simp only [List.mem_append, List.mem_singleton] at hl
      rcases hl with hl | hl
      · exact h l hl m1 hm1
      · subst hl
        simp only [Option.some.injEq] at hm1
        exact hm1 ▸ hm

theorem Route.applyAll_tagsValid (calls : List RegCall) :
    ∀ r : Route, (∀ c ∈ calls, c.valid) → r.TagsValid → (r.applyAll calls).TagsValid := by
  induction calls with
  | nil => intro r _ h; exact h
  | cons c rest ih =>
    intro r hv h
    refine ih _ (fun c hc => hv c (List.mem_cons_of_mem _ hc)) ?_
    have hc := hv c (List.mem_cons_self _ _)
    cases c with
    | all args => exact Route.allLoop_tagsValid _ r h
    | method m args => exact Route.methodLoop_tagsValid m hc _ r h

/-- C12: in every route state reached from a new route by registration calls
(`all`, or the operation of a name of the `methods` table), whether the calls
succeed or throw, the flag of a method name `m` is set (`m` is an own key of
`this.methods`, and `this.methods[m]` reads truthy) if and only if some layer
is tagged `m`, and the any-method flag `_all` is set if and only if some layer
is untagged. -/
theorem C12_flags_follow_layers (r : Route) (path : String) (calls : List RegCall)
    (hr : r = (Route.new path).applyAll calls) (hv : ∀ c ∈ calls, c.valid) :
    (∀ m, isMethodName m = true →
      (m ∈ r.methods ↔ ∃ l ∈ r.stack, l.method = some m) ∧
      (objectPrototypeKeys.contains m = false →
        (r.flag m = true ↔ ∃ l ∈ r.stack, l.method = some m))) ∧
    ("_all" ∈ r.methods ↔ ∃ l ∈ r.stack, l.method = none) ∧
    (r.flag "_all" = true ↔ ∃ l ∈ r.stack, l.method = none) := by
  have hfm : r.FlagsMatch := by
    rw [hr]; exact Route.applyAll_flagsMatch calls _ hv (Route.new_flagsMatch path)
  have htv : r.TagsValid := by
    rw [hr]
    exact Route.applyAll_tagsValid calls _ hv (fun l hl => by simp [Route.new] at hl)
  have hkm : ∀ m, isMethodName m = true →
      ((∃ l ∈ r.stack, l.flagKey = m) ↔ ∃ l ∈ r.stack, l.method = some m) := by
    intro m hm
    constructor
    · rintro ⟨l, hl, hk⟩
      refine ⟨l, hl, ?_⟩
      unfold Layer.flagKey at hk
      cases hlm : l.method with
      | none => rw [hlm] at hk; exact absurd hk.symm (isMethodName_ne_all hm)
      | some t => rw [hlm] at hk; rw [← hk]
    · rintro ⟨l, hl, hk⟩
      exact ⟨l, hl, by unfold Layer.flagKey; rw [hk]⟩
  have hka : (∃ l ∈ r.stack, l.flagKey = "_all") ↔ ∃ l ∈ r.stack, l.method = none := by
    constructor
    · rintro ⟨l, hl, hk⟩
      refine ⟨l, hl, ?_⟩
      unfold Layer.flagKey at hk
      cases hlm : l.method with
      | none => rfl
      | some t =>
        rw [hlm] at hk
        have hk2 : t = "_all" := hk
        exact absurd (htv l hl t hlm) (by rw [hk2]; decide)
    · rintro ⟨l, hl, hk⟩
      exact ⟨l, hl, by unfold Layer.flagKey; rw [hk]⟩
  refine ⟨fun m hm => ⟨(hfm m).trans (hkm m hm), fun hp => ?_⟩, (hfm "_all").trans hka, ?_⟩
  · exact (Route.flag_of_flagsMatch hfm m hp).trans (hkm m hm)
  · exact (Route.flag_of_flagsMatch hfm "_all" (by decide)).trans hka

theorem C12_flags_follow_layers_witness :
    (∀ m, isMethodName m = true →
      (m ∈ exAllRoute.methods ↔ ∃ l ∈ exAllRoute.stack, l.method = some m) ∧
      (objectPrototypeKeys.contains m = false →
        (exAllRoute.flag m = true ↔ ∃ l ∈ exAllRoute.stack, l.method = some m))) ∧
    ("_all" ∈ exAllRoute.methods ↔ ∃ l ∈ exAllRoute.stack, l.method = none) ∧
    (exAllRoute.flag "_all" = true ↔ ∃ l ∈ exAllRoute.stack, l.method = none) :=
  C12_flags_follow_layers exAllRoute "/x" [.all [.fn exPass], .method "get" [.fn exPass]] rfl
    (by
      intro c hc
      simp only [List.mem_cons, List.mem_singleton, List.not_mem_nil, or_false] at hc
      rcases hc with rfl | rfl
      · exact trivial
      · exact (by decide : isMethodName "get" = true))

/-- C14, at the failing input: `dispatch` runs `next()` before the assignment
`req.route = this`. On the route `exRoute`, with a request whose `route` field
does not refer to it, both handlers called in the first turn are called while
`req.route` is still not the dispatching route; the field is set only when
`dispatch` returns. -/
theorem C14_route_recorded_after_first_turn :
    (exRoute.dispatch ⟨.str "GET", false⟩).trace =
        [.invoke 0 none false, .invoke 2 none false, .done (some .undefined)] ∧
      (exRoute.dispatch ⟨.str "GET", false⟩).route = true ∧
      (exRoute.dispatch ⟨.str "GET", false⟩).queue = [] := by
  decide

theorem decodeFrom_plain (cs : List Char) (h : '%' ∉ cs) : decodeFrom cs 0 0 0 = some cs := by
  induction cs with
  | nil => simp [decodeFrom]
  | cons c rest ih =>
    have hc : c ≠ '%' := fun hc => h (hc ▸ List.mem_cons_self _ _)
    have hr : '%' ∉ rest := fun hr => h (List.mem_cons_of_mem _ hr)
    unfold decodeFrom
    rw [if_neg hc, if_pos rfl, ih hr]
    rfl

/-- The builtin leaves a string without `%` unchanged. -/
theorem decodeURIComponent_plain (s : String) (h : '%' ∉ s.data) :
    decodeURIComponent s = some s := by
  unfold decodeURIComponent
  rw [decodeFrom_plain s.data h]
  rfl

/-- C15: `decodeParam(v)` returns `v` unchanged when `v` is not a string or is
the empty string. For a non-empty string `s` it returns the string
`decodeURIComponent(s)` when the builtin succeeds, that is when every `%`
starts well-formed escapes of valid UTF-8 (`a%20b` gives `a b`; a string
without `%` is returned unchanged), and otherwise it throws an error with
`status` 400 and the message `Failed to decode param` followed by `s` in single
quotes (as for `%`). -/
theorem C15_decodeParam (v : JSVal) (s : String) :
    ((∀ t, v ≠ .str t) → Layer.decodeParam v = .ok v) ∧
      Layer.decodeParam (.str "") = .ok (.str "") ∧
      (s ≠ "" → ∀ d, decodeURIComponent s = some d →
        Layer.decodeParam (.str s) = .ok (.str d)) ∧
      (s ≠ "" → decodeURIComponent s = none →
        Layer.decodeParam (.str s) =
          .error (JSError.mk "URIError" ("Failed to decode param '" ++ s ++ "'")
            (some 400) (some 400))) ∧
      ('%' ∉ s.data → Layer.decodeParam (.str s) = .ok (.str s)) ∧
      Layer.decodeParam (.str "a%20b") = .ok (.str "a b") ∧
      Layer.decodeParam (.str "%") =
        .error (JSError.mk "URIError" "Failed to decode param '%'" (some 400) (some 400)) := by
  have hlen : s ≠ "" → ¬s.length = 0 := by
    intro hs hl
    apply hs
    have : s.data = [] := List.length_eq_zero.1 hl
    exact String.ext this
  refine ⟨?_, by decide, ?_, ?_, ?_, by decide, by decide⟩
  · intro hv
    cases v with
    | str t => exact absurd rfl (hv t)
    | undefined => rfl
    | null => rfl
    | bool b => rfl
    | num n => rfl
    | nan => rfl
    | obj tag id => rfl
  · intro hs d hd
    simp only [Layer.decodeParam, if_neg (hlen hs), hd]
  · intro hs hd
    simp only [Layer.decodeParam, if_neg (hlen hs), hd]
  · intro hp
    by_cases hs : s.length = 0
    · simp only [Layer.decodeParam, if_pos hs]
    · simp only [Layer.decodeParam, if_neg hs, decodeURIComponent_plain s hp]

theorem C15_decodeParam_witness :
    Layer.decodeParam (.num 5) = .ok (.num 5) ∧
      Layer.decodeParam (.str "caf%C3%A9") = .ok (.str "café") ∧
      Layer.decodeParam (.str "%C3") =
        .error (JSError.mk "URIError" ("Failed to decode param '" ++ "%C3" ++ "'")
          (some 400) (some 400)) :=
  ⟨(C15_decodeParam (.num 5) "caf%C3%A9").1 (fun t h => by cases h),
    (C15_decodeParam (.num 5) "caf%C3%A9").2.2.1 (by decide) "café" (by decide),
    (C15_decodeParam .undefined "%C3").2.2.2.1 (by decide) (by decide)⟩

theorem getProp_cons (p : String × JSVal) (ps : List (String × JSVal)) (k : String) :
    getProp (p :: ps) k = if p.1 == k then some p.2 else getProp ps k := by
  unfold getProp
  rw [List.find?_cons]
  by_cases h : (p.1 == k) = true
  · simp [h]
  · simp [h]

theorem any_eq_isSome_getProp (ps : List (String × JSVal)) (k : String) :
    ps.any (fun p => p.1 == k) = (getProp ps k).isSome := by
  induction ps with
  | nil => rfl
  | cons p ps ih =>
    rw [getProp_cons, List.any_cons, ih]
    by_cases h : (p.1 == k) = true
    · simp [h]
    · simp [h]

theorem getProp_append_single (ps : List (String × JSVal)) (n k : String) (v : JSVal) :
    getProp (ps ++ [(n, v)]) k =
      match getProp ps k with
      | some x => some x
      | none => if n == k then some v else none := by
  induction ps with
  | nil => simp [getProp]
  | cons p ps ih =>
    rw [List.cons_append, getProp_cons, getProp_cons, ih]
    by_cases h : (p.1 == k) = true
    · simp [h]
    · simp [h]

theorem getProp_map_replace (ps : List (String × JSVal)) (n k : String) (v : JSVal) :
    getProp (ps.map (fun p => if p.1 == n then (n, v) else p)) k =
      if n == k then (getProp ps n).map (fun _ => v) else getProp ps k := by
  induction ps with
  | nil => simp [getProp]
  | cons p ps ih =>
    rw [List.map_cons, getProp_cons, getProp_cons, getProp_cons, ih]
    by_cases h1 : (p.1 == n) = true
    · have e1 : p.1 = n := by simpa using h1
      by_cases h2 : (n == k) = true
      · have e2 : n = k := by simpa using h2
        subst e1 e2
        simp
      · have e2 : ¬n = k := by simpa using h2
        have e3 : ¬p.1 = k := by rw [e1]; exact e2
        simp [h1, e2, e3]
    · by_cases h2 : (n == k) = true
      · have e2 : n = k := by simpa using h2
        subst e2
        simp [h1]
      · simp [h1, h2]

theorem getProp_setProp_self (ps : List (String × JSVal)) (k : String) (v : JSVal)
    (hk : k ≠ "__proto__") : getProp (setProp ps k v) k = some v := by
  unfold setProp
  rw [if_neg (by simpa using hk)]
  by_cases h : ps.any (fun p => p.1 == k) = true
  · rw [if_pos h, getProp_map_replace]
    rw [any_eq_isSome_getProp] at h
    cases hg : getProp ps k with
    | none => rw [hg] at h; exact absurd h (by decide)
    | some x => simp
  · rw [if_neg h, getProp_append_single]
    rw [any_eq_isSome_getProp] at h
    cases hg : getProp ps k with
    | none => simp
    | some x => rw [hg] at h; exact absurd rfl h

theorem getProp_setProp_ne (ps : List (String × JSVal)) (n k : String) (v : JSVal)
    (hn : n ≠ k) : getProp (setProp ps n v) k = getProp ps k := by
  unfold setProp
  split_ifs
  · rfl
  · rw [getProp_map_replace]; simp [hn]
  · rw [getProp_append_single]
    cases getProp ps k <;> simp [hn]

theorem hasProp_eq (ps : List (String × JSVal)) (k : String) :
    hasProp ps k = ((getProp ps k).isSome || objectPrototypeKeys.contains k) := by
  unfold hasProp
  rw [any_eq_isSome_getProp]

theorem getProp_storeGroup_ne (ps : List (String × JSVal)) (g : String × JSVal) (k : String)
    (hn : g.1 ≠ k) : getProp (storeGroup ps g) k = getProp ps k := by
  unfold storeGroup
  split_ifs
  · exact getProp_setProp_ne ps g.1 k g.2 hn
  · rfl

/-- The property `k` after the loop of `match` has stored the groups, from the
property list `ps`: the last defined value of a group named `k` if there is
one; else what `ps` held; else `undefined` when a group is named `k` and `k`
is not inherited from `Object.prototype`. -/
theorem getProp_foldl_storeGroup (k : String) (hk : k ≠ "__proto__") :
    ∀ (groups ps : List (String × JSVal)),
      getProp (groups.foldl storeGroup ps) k =
        match lastDefined k groups with
        | some v => some v
        | none =>
          match getProp ps k with
          | some x => some x
          | none =>
            if groups.any (fun g => g.1 == k) && !objectPrototypeKeys.contains k then
              some .undefined
            else none := by
  intro groups
  induction groups with
  | nil =>
    intro ps
    simp only [List.foldl_nil, lastDefined, List.any_nil, Bool.false_and]
    cases getProp ps k <;> rfl
  | cons g rest ih =>
    intro ps
    obtain ⟨n, v⟩ := g
    rw [List.foldl_cons, ih, lastDefined]
    cases hl : lastDefined k rest with
    | some w => rfl
    | none =>
      simp only []
      by_cases hn : n = k
      · subst hn
        by_cases hv : v = .undefined
        · subst hv
          cases hp : getProp ps n with
          | some x =>
            have hst : storeGroup ps (n, .undefined) = ps := by
              unfold storeGroup; simp [hasProp_eq, hp]
            simp [hst, hp]
          | none =>
            by_cases hproto : objectPrototypeKeys.contains n = true
            · have hst : storeGroup ps (n, .undefined) = ps := by
                unfold storeGroup
                rw [hasProp_eq, hproto]
                simp
              have hmem : n ∈ objectPrototypeKeys := by simpa using hproto
              rw [hst, hp]
              simp [hproto, hmem]
            · have hproto2 : objectPrototypeKeys.contains n = false := by simpa using hproto
              have hst : storeGroup ps (n, .undefined) = setProp ps n .undefined := by
                unfold storeGroup
                rw [hasProp_eq, hproto2, hp]
                simp
              rw [hst, getProp_setProp_self ps n _ hk, hproto2]
              simp
        · have hst : storeGroup ps (n, v) = setProp ps n v := by
            unfold storeGroup; simp [hv]
          rw [hst, getProp_setProp_self ps n _ hk]
          simp [hv]
      · have hst := getProp_storeGroup_ne ps (n, v) k hn
        have hnk : (n == k) = false := by simpa using hn
        rw [hst]
        simp only [List.any_cons, hnk, Bool.false_or, Bool.false_and, Bool.false_eq_true,
          if_false]

/-- When every capture group has a key and decodes, the loop of `match` stores
the groups one after the other and throws nothing. -/
theorem matchLoop_eq_foldl (keys : List String) :
    ∀ (caps vals : List JSVal) (i : Nat) (ps : List (String × JSVal)),
      List.Forall₂ (fun c v => Layer.decodeParam c = .ok v) caps vals →
      i + caps.length ≤ keys.length →
      matchLoop keys (i + 1) caps ps = (((keys.drop i).zip vals).foldl storeGroup ps, none) := by
  intro caps
  induction caps with
  | nil =>
    intro vals i ps h _
    cases h
    simp [matchLoop]
  | cons c rest ih =>
    intro vals i ps h hlen
    cases h with
    | cons hcv hrest =>
      rename_i v vs
      have hi : i < keys.length := by
        simp only [List.length_cons] at hlen; omega
      have hd : keys.drop i = keys[i] :: keys.drop (i + 1) := List.drop_eq_getElem_cons hi
      have hk : keys[i + 1 - 1]? = some keys[i] := by
        simp only [Nat.add_sub_cancel]
        exact List.getElem?_eq_getElem hi
      rw [matchLoop, hk]
      simp only [hcv]
      rw [ih vs (i + 1) _ hrest (by simp only [List.length_cons] at hlen; omega), hd]
      rfl

theorem lastDefined_ne_undefined (k : String) :
    ∀ (groups : List (String × JSVal)) (v : JSVal), lastDefined k groups = some v →
      v ≠ .undefined := by
  intro groups
  induction groups with
  | nil => intro v h; simp [lastDefined] at h
  | cons g rest ih =>
    intro v h
    rw [lastDefined] at h
    cases hl : lastDefined k rest with
    | some w =>
      rw [hl] at h
      simp only [Option.some.injEq] at h
      exact h ▸ ih w hl
    | none =>
      rw [hl] at h
      simp only [] at h
      by_cases hc : (g.1 == k && g.2 != JSVal.undefined) = true
      · rw [if_pos hc] at h
        simp only [Option.some.injEq] at h
        simp only [Bool.and_eq_true, bne_iff_ne, ne_eq] at hc
        exact h ▸ hc.2
      · rw [if_neg hc] at h
        exact absurd h (by simp)

theorem lastDefined_eq_none (k : String) :
    ∀ (groups : List (String × JSVal)), lastDefined k groups = none →
      ∀ g ∈ groups, g.1 = k → g.2 = .undefined := by
  intro groups
  induction groups with
  | nil => intro _ g hg; simp at hg
  | cons g0 rest ih =>
    intro h g hg hgk
    rw [lastDefined] at h
    cases hl : lastDefined k rest with
    | some w => rw [hl] at h; exact absurd h (by simp)
    | none =>
      rw [hl] at h
      simp only [] at h
      rcases List.mem_cons.1 hg with rfl | hg
      · by_contra hv
        have hc : (g.1 == k && g.2 != JSVal.undefined) = true := by simp [hgk, hv]
        rw [if_pos hc] at h
        exact absurd h (by simp)
      · exact ih hl g hg hgk

/-- C17, at the failing input: after `match("x")` the matcher `exStar` holds
the result of that call; `match("")` and `match(undefined)` then return false
through the early `return false`, and the stored result is still that of the
earlier call instead of being cleared. -/
theorem C17_empty_path_keeps_stale_result :
    (exStar.matchPath (.str "x")).1.params = some [("0", .str "x")] ∧
      (exStar.matchPath (.str "x")).1.path = .str "x" ∧
      ((exStar.matchPath (.str "x")).1.matchPath (.str "")).2 = .ok false ∧
      ((exStar.matchPath (.str "x")).1.matchPath (.str "")).1.params =
        some [("0", .str "x")] ∧
      ((exStar.matchPath (.str "x")).1.matchPath (.str "")).1.path = .str "x" ∧
      ((exStar.matchPath (.str "x")).1.matchPath .undefined).2 = .ok false ∧
      ((exStar.matchPath (.str "x")).1.matchPath .undefined).1.params =
        some [("0", .str "x")] := by
  decide

/-- C18, as stated, fails: with two capture groups named `id` that capture `a`
and `b`, `match` stores `b` under `id`, the value of the later group, while the
first group with a defined value holds `a`. -/
theorem C18_later_group_overwrites :
    ((PathMatcher.new exDupCompiler "/:id/:id" none).matchPath (.str "/a/b")).2 = .ok true ∧
      ((PathMatcher.new exDupCompiler "/:id/:id" none).matchPath (.str "/a/b")).1.params =
        some [("id", .str "b")] ∧
      firstDefined "id"
        ((PathMatcher.new exDupCompiler "/:id/:id" none).keys.zip [.str "a", .str "b"]) =
        some (.str "a") := by
  decide

/-- C18, amended: for a matcher on the general branch (neither fast-path flag
set) and a successful pattern match whose capture groups all have a key and
all decode, `match` returns true, stores the matched substring, and stores
under a key name `k` (other than `__proto__`) the decoded value of the last
capture group, in capture order, named `k` whose decoded value is defined: a
later defined group overwrites an earlier one, and a group whose value is
`undefined` never overwrites. When no group named `k` has a defined value,
`undefined` is stored if some group is named `k` and `k` is not inherited from
`Object.prototype`, and nothing is stored otherwise; so `undefined` is stored
only when every group with that name is `undefined`. -/
theorem C18_last_defined_group_wins (m : PathMatcher) (path : JSVal) (whole : String)
    (caps vals : List JSVal) (k : String)
    (hpath : path.truthy = true) (hslash : m.regexp.fast_slash = false)
    (hstar : m.regexp.fast_star = false)
    (hexec : m.regexp.exec path.toKey = some (whole, caps))
    (hkeys : caps.length ≤ m.keys.length)
    (hdec : List.Forall₂ (fun c v => Layer.decodeParam c = .ok v) caps vals)
    (hk : k ≠ "__proto__") :
    (m.matchPath path).2 = .ok true ∧ (m.matchPath path).1.path = .str whole ∧
      ∃ ps, (m.matchPath path).1.params = some ps ∧
        getProp ps k =
          (match lastDefined k (m.keys.zip vals) with
            | some v => some v
            | none =>
              if (m.keys.zip vals).any (fun g => g.1 == k) &&
                  !objectPrototypeKeys.contains k then some .undefined
              else none) ∧
        (getProp ps k = some .undefined →
          ∀ g ∈ m.keys.zip vals, g.1 = k → g.2 = .undefined) := by
  have hloop := matchLoop_eq_foldl m.keys caps vals 0 [] hdec (by omega)
  have hres : m.matchPath path =
      ({ m with params := some ((m.keys.zip vals).foldl storeGroup []), path := .str whole },
        .ok true) := by
    unfold PathMatcher.matchPath
    simp only [hpath, hslash, hstar, hexec, Bool.not_true, Bool.false_eq_true, if_false]
    rw [show (1 : Nat) = 0 + 1 from rfl, hloop]
    simp
  have hget := getProp_foldl_storeGroup k hk (m.keys.zip vals) []
  have hnil : getProp ([] : List (String × JSVal)) k = none := rfl
  rw [hnil] at hget
  simp only [] at hget
  rw [hres]
  refine ⟨rfl, rfl, _, rfl, hget, ?_⟩
  intro hu
  rw [hget] at hu
  cases hl : lastDefined k (m.keys.zip vals) with
  | some w =>
    rw [hl] at hu
    simp only [Option.some.injEq] at hu
    exact absurd hu (lastDefined_ne_undefined k _ w hl)
  | none => exact lastDefined_eq_none k _ hl

theorem C18_last_defined_group_wins_witness :
    ((PathMatcher.new exOptCompiler "/x" none).matchPath (.str "/a")).2 = .ok true ∧
      ((PathMatcher.new exOptCompiler "/x" none).matchPath (.str "/a")).1.path = .str "/a" :=
  have h := C18_last_defined_group_wins (PathMatcher.new exOptCompiler "/x" none) (.str "/a")
    "/a" [.str "a", .undefined, .undefined] [.str "a", .undefined, .undefined] "id"
    (by decide) (by decide) (by decide) rfl (by decide)
    (List.Forall₂.cons (by decide)
      (List.Forall₂.cons rfl (List.Forall₂.cons rfl List.Forall₂.nil)))
    (by decide)
  ⟨h.1, h.2.1⟩

/-- C19, at the failing input: on a new route, with no layer at all,
`_handles_method("constructor")` returns true, because `this.methods` is a
plain object and `this.methods["constructor"]` reads the property inherited
from `Object.prototype`; a dispatch of such a request calls no handler. -/
theorem C19_handles_inherited_property_name :
    (Route.new "/x")._handles_method (.str "constructor") = true ∧
      (Route.new "/x").stack.length = 0 ∧
      (Route.new "/x").methods = [] ∧
      ((Route.new "/x").run ⟨.str "constructor", false⟩ 1).trace = [.done none] ∧
      exGetRoute._handles_method (.str "CONSTRUCTOR") = true ∧
      invokedLayers (exGetRoute.run ⟨.str "CONSTRUCTOR", false⟩ 2).trace = [] := by
  decide

/-- C20: a layer whose handler declares 5 or more parameters never has it
called: `handle_request` calls the continuation with no argument and
`handle_error` calls it with the unchanged error; `handle_request` does the
same for a handler that declares exactly 4 parameters. Hence, in any dispatch
and whatever the handlers do, every handler that is called declares at most 4
parameters, one that declares exactly 4 is called only with a pending
(truthy) error as its first argument, and one called without an error
argument declares at most 3. -/
theorem C20_arity_gates_invocation (l : Layer) (i : Nat) (req : Req)
    (nxt : JSVal → DState → DState) (st : DState) (e : JSVal) (r : Route) (turns : Nat) :
    (5 ≤ l.handle.length →
      l.handle_request i req nxt st = nxt .undefined st ∧
      l.handle_error i req nxt e st = nxt e st) ∧
    (l.handle.length = 4 → l.handle_request i req nxt st = nxt .undefined st) ∧
    (∀ j a b, Event.invoke j a b ∈ (r.run req turns).trace →
      ∃ lj, r.stack[j]? = some lj ∧ lj.handle.length ≤ 4 ∧
        (lj.handle.length = 4 → ∃ x, a = some x ∧ x.truthy = true) ∧
        (a = none → lj.handle.length ≤ 3)) := by
  refine ⟨fun h5 => ⟨?_, ?_⟩, fun h4 => ?_, ?_⟩
  · unfold Layer.handle_request
    rw [if_pos (by omega)]
  · unfold Layer.handle_error
    rw [if_pos (by omega)]
  · unfold Layer.handle_request
    rw [if_pos (by omega)]
  · intro j a b hmem
    obtain ⟨lj, hl, _, harity⟩ := (Route.run_good r req turns).legit _ hmem
    refine ⟨lj, hl, ?_, ?_, ?_⟩
    · cases a with
      | none => simp only [] at harity; omega
      | some x => simp only [] at harity; omega
    · intro h4
      cases a with
      | none => simp only [] at harity; omega
      | some x => exact ⟨x, rfl, harity.1⟩
    · intro ha
      subst ha
      exact harity

theorem C20_arity_gates_invocation_witness :
    (Layer.new "/" none exFive).handle_request 0 ⟨.str "GET", false⟩
        (exArityRoute.next ⟨.str "GET", false⟩ (.str "get") 3) (DState.init ⟨.str "GET", false⟩) =
      exArityRoute.next ⟨.str "GET", false⟩ (.str "get") 3 .undefined
        (DState.init ⟨.str "GET", false⟩) ∧
    ∃ lj, exArityRoute.stack[2]? = some lj ∧ lj.handle.length ≤ 4 :=
  have h := C20_arity_gates_invocation (Layer.new "/" none exFive) 0 ⟨.str "GET", false⟩
    (exArityRoute.next ⟨.str "GET", false⟩ (.str "get") 3) (DState.init ⟨.str "GET", false⟩)
    (.str "boom") exArityRoute 3
  have h3 := h.2.2 2 none false (by decide)
  ⟨(h.1 (by decide)).1, h3.choose, h3.choose_spec.1, h3.choose_spec.2.1⟩

theorem Route.getMethod_str (r : Route) (s : String) (b : Bool) :
    r.getMethod ⟨.str s, b⟩ = .str (r.effectiveName s) := by
  unfold Route.getMethod Route.effectiveName
  by_cases h1 : toLowerCase s = "head" <;> by_cases h2 : r.flag "head" = true <;>
    simp [h1, h2]

theorem Route.handles_method_str (r : Route) (s : String) :
    r._handles_method (.str s) = (r.flag "_all" || r.flag (r.effectiveName s)) := by
  unfold Route._handles_method Route.effectiveName
  by_cases h0 : r.flag "_all" = true
  · simp [h0]
  · by_cases h1 : toLowerCase s = "head" <;> by_cases h2 : r.flag "head" = true <;>
      simp [h0, h1, h2, JSVal.toKey]

/-- Apart from the names inherited from `Object.prototype`, `_handles_method`
agrees with the method filter of `dispatch` on every route built by
registration calls: a layer that `next` would not skip makes it true; when it
is true and the name looked up is not an inherited one, there is such a layer;
and when it is false no handler is called, whatever the handlers do. -/
theorem Route.handles_vs_layers (r : Route) (path : String) (calls : List RegCall)
    (s : String) (b : Bool) (turns : Nat)
    (hr : r = (Route.new path).applyAll calls) (hv : ∀ c ∈ calls, c.valid) :
    ((∃ l ∈ r.stack, l.skipped (r.getMethod ⟨.str s, b⟩) = false) →
      r._handles_method (.str s) = true) ∧
    (r._handles_method (.str s) = true →
      objectPrototypeKeys.contains (r.effectiveName s) = false →
      ∃ l ∈ r.stack, l.skipped (r.getMethod ⟨.str s, b⟩) = false) ∧
    (r._handles_method (.str s) = false →
      invokedLayers (r.run ⟨.str s, b⟩ turns).trace = []) := by
  have hfm : r.FlagsMatch := by
    rw [hr]; exact Route.applyAll_flagsMatch calls _ hv (Route.new_flagsMatch path)
  have htv : r.TagsValid := by
    rw [hr]
    exact Route.applyAll_tagsValid calls _ hv (fun l hl => by simp [Route.new] at hl)
  have hown : ∀ key, key ∈ r.methods → r.flag key = true := by
    intro key hk
    unfold Route.flag
    have : r.methods.contains key = true := by simpa using hk
    rw [this]; rfl
  have h1 : (∃ l ∈ r.stack, l.skipped (r.getMethod ⟨.str s, b⟩) = false) →
      r._handles_method (.str s) = true := by
    rintro ⟨l, hl, hsk⟩
    rw [Route.handles_method_str]
    rw [Route.getMethod_str] at hsk
    unfold Layer.skipped at hsk
    cases hm : l.method with
    | none =>
      have : r.flag "_all" = true :=
        hown _ ((hfm "_all").2 ⟨l, hl, by unfold Layer.flagKey; rw [hm]⟩)
      rw [this]; rfl
    | some t =>
      rw [hm] at hsk
      have ht : t ≠ "" := isMethodName_ne_empty (htv l hl t hm)
      have hte : t = r.effectiveName s := by
        simp only [Bool.and_eq_false_iff, bne_eq_false_iff_eq, JSVal.str.injEq] at hsk
        rcases hsk with h | h
        · exact absurd h ht
        · exact h
      have : r.flag (r.effectiveName s) = true :=
        hown _ ((hfm _).2 ⟨l, hl, by unfold Layer.flagKey; rw [hm, hte]⟩)
      rw [this, Bool.or_true]
  refine ⟨h1, ?_, ?_⟩
  · intro hh hp
    rw [Route.handles_method_str] at hh
    rw [Route.getMethod_str]
    by_cases hall : r.flag "_all" = true
    · obtain ⟨l, hl, hk⟩ := (Route.flag_of_flagsMatch hfm "_all" (by decide)).1 hall
      refine ⟨l, hl, ?_⟩
      unfold Layer.flagKey at hk
      unfold Layer.skipped
      cases hm : l.method with
      | none => rfl
      | some t =>
        rw [hm] at hk
        have hk2 : t = "_all" := hk
        exact absurd (htv l hl t hm) (by rw [hk2]; decide)
    · have he : r.flag (r.effectiveName s) = true := by
        simpa [hall] using hh
      obtain ⟨l, hl, hk⟩ := (Route.flag_of_flagsMatch hfm _ hp).1 he
      refine ⟨l, hl, ?_⟩
      unfold Layer.flagKey at hk
      unfold Layer.skipped
      cases hm : l.method with
      | none => rfl
      | some t =>
        rw [hm] at hk
        have hk2 : t = r.effectiveName s := hk
        simp [hk2]
  · intro hh
    cases hinv : invokedLayers (r.run ⟨.str s, b⟩ turns).trace with
    | nil => rfl
    | cons j rest =>
      have hj : j ∈ invokedLayers (r.run ⟨.str s, b⟩ turns).trace := by
        rw [hinv]; exact List.mem_cons_self _ _
      obtain ⟨a, b2, hmem⟩ := mem_invokedLayers hj
      obtain ⟨l, hl, hsk, _⟩ := (Route.run_good r ⟨.str s, b⟩ turns).legit _ hmem
      have := h1 ⟨l, List.getElem?_mem hl, hsk⟩
      rw [hh] at this
      exact absurd this (by decide)

end Express
